import Mathlib

/-!
# A verification development for `shell.c`

The command interpreter of `shell.c` is embedded function by function.

* The argument vector `char **args` is a list of cells, each cell a pointer: `none` is the
  `NULL` pointer and `some s` a pointer to the C string `s`.  The launchers only ever write
  `NULL` into cells, they never change the characters of a token.
* A launcher is a computation of one process.  `fork` returns twice; the value it returns in
  the process under observation is an input of the model (`0` in the child, the child's pid in
  the parent, `-1` on failure), as are the results of `execvp`, `open`, `pipe` and the status
  words stored by `waitpid`.  The computation records every system call and diagnostic of that
  process in a trace and keeps the process's own copy of the argument vector.
* `BreakLine` runs on the character buffer itself: `strtok` writes terminators into the buffer
  and returns indices into it.
-/

namespace Shell

/-! ## The argument vector -/

/-- The cells of a `char **` array: `none` is `NULL`. -/
abbrev Argv := List (Option String)

/-- The cell `args[i]`.  A read behind the cells that are modelled yields `NULL`; the theorems
are about vectors that hold a terminator, where no such read occurs. -/
def cell (args : Argv) (i : Nat) : Option String := args.getD i none

/-- The strings `execvp` reads from a vector: the cells up to the first `NULL`. -/
def argList : Argv → List String
  | some s :: rest => s :: argList rest
  | _ => []

/-! ## Processes, events and outcomes -/

/-- The `options` argument of `waitpid`. -/
inductive WaitOpt
  | WUNTRACED
  | WNOHANG
  deriving DecidableEq, Repr

/-- The flags `open` is called with: `O_RDONLY`, or `O_WRONLY|O_CREAT|O_TRUNC`. -/
inductive OpenFlags
  | O_RDONLY
  | O_WRONLY_CREAT_TRUNC
  deriving DecidableEq, Repr

/-- The permission bits `S_IRUSR | S_IWUSR | S_IRGRP | S_IROTH` of line 145. -/
def mode : Nat := 0o400 ||| 0o200 ||| 0o040 ||| 0o004

/-- The status `EXIT_FAILURE` of `stdlib.h`. -/
def EXIT_FAILURE : Nat := 1

/-- The descriptors `STDIN_FILENO` and `STDOUT_FILENO` of `unistd.h`. -/
def STDIN_FILENO : Int := 0

/-- See `STDIN_FILENO`. -/
def STDOUT_FILENO : Int := 1

/-- What the macros `WIFEXITED` and `WIFSIGNALED` answer on the status word after a
`waitpid` call. -/
structure WStatus where
  ifexited : Bool
  ifsignaled : Bool
  deriving DecidableEq, Repr

/-- A launcher call as `main` makes it: the vector handed over, the operator index and, for
`IORedirect`, the mode. -/
inductive Call
  | IORedirect (args : Argv) (k : Nat) (ioMode : Nat)
  | PipeRedirect (args : Argv) (k : Nat)
  | StartProcess (args : Argv) (k : Nat)
  deriving DecidableEq, Repr

/-- The observable steps of one process. -/
inductive Event
  | call (c : Call)
  | fork (ret : Int)
  | execvp (file : Option String) (argv : List String)
  | perror (msg : String)
  | stderr (msg : String)
  | exit (status : Nat)
  | waitpid (pid : Int) (options : WaitOpt)
  | wait
  | pipe (ret : Int)
  | dup2 (oldfd newfd : Int)
  | close (fd : Int)
  | openFile (path : Option String) (flags : OpenFlags) (perm : Nat) (ret : Int)
  | chdir (path : String)
  deriving DecidableEq, Repr

/-- How the observed process stops inside the code under consideration, when it does not
run to the end of it. -/
inductive Halt
  /-- The process called `exit`. -/
  | exited (status : Nat)
  /-- The process image was replaced by `execvp`. -/
  | replaced
  /-- The process is still inside a wait loop: the supplied status words ran out. -/
  | waiting
  /-- The process dereferenced a `NULL` pointer. -/
  | crashed
  /-- The model of a loop ran out of fuel. -/
  | fuelOut
  deriving DecidableEq, Repr

/-- The state of the observed process: its copy of the argument vector and what it did. -/
structure PState where
  args : Argv
  trace : List Event
  deriving DecidableEq, Repr

/-- Result of a computation: `ok a s` when control reaches the end of the code (a function
returns to its caller) with value `a`, `stop h s` when the process stopped before. -/
inductive Res (α : Type)
  | ok (a : α) (s : PState)
  | stop (h : Halt) (s : PState)
  deriving DecidableEq, Repr

/-- The state a computation ends in. -/
def Res.state {α : Type} : Res α → PState
  | .ok _ s => s
  | .stop _ s => s

/-- The events of a computation. -/
def Res.trace {α : Type} (r : Res α) : List Event := r.state.trace

/-- The argument vector a computation leaves in the memory of the process. -/
def Res.args {α : Type} (r : Res α) : Argv := r.state.args

/-- A computation of the observed process. -/
def Proc (α : Type) : Type := PState → Res α

/-- Sequencing: a stopped process runs nothing further. -/
def Proc.bind {α β : Type} (m : Proc α) (f : α → Proc β) : Proc β := fun s =>
  match m s with
  | .ok a s1 => f a s1
  | .stop h s1 => .stop h s1

instance : Monad Proc where
  pure a := fun s => .ok a s
  bind := Proc.bind

/-- Record an event. -/
def emit (e : Event) : Proc Unit := fun s => .ok () { s with trace := s.trace ++ [e] }

/-- Read the whole vector. -/
def getArgs : Proc Argv := fun s => .ok s.args s

/-- The assignment `args[i] = NULL`. -/
def setNull (i : Nat) : Proc Unit := fun s => .ok () { s with args := s.args.set i none }

/-- The call `fork()`, returning `ret` in the observed process. -/
def fork (ret : Int) : Proc Int := do
  emit (.fork ret)
  pure ret

/-- The call `execvp(v[0], v)`: on success the process image is replaced, on failure the call
returns `-1`. -/
def execvp (ok : Bool) (v : Argv) : Proc Int := do
  emit (.execvp (cell v 0) (argList v))
  if ok then (fun s => .stop .replaced s) else pure (-1)

/-- The call `exit(status)`. -/
def exit (status : Nat) : Proc Unit := do
  emit (.exit status)
  fun s => .stop (.exited status) s

/-- The call `perror(msg)`. -/
def perror (msg : String) : Proc Unit := emit (.perror msg)

/-- The call `fprintf(stderr, msg)`. -/
def fprintf_stderr (msg : String) : Proc Unit := emit (.stderr msg)

/-- The call `waitpid(pid, &status, options)`. -/
def waitpid (pid : Int) (options : WaitOpt) : Proc Unit := emit (.waitpid pid options)

/-- The loop `do { wpid = waitpid(pid, &status, WUNTRACED); } while (!WIFEXITED(status) &&
!WIFSIGNALED(status));`, the list holding the status word after each call. -/
def waitLoop (pid : Int) : List WStatus → Proc Unit
  | [] => fun s => .stop .waiting s
  | st :: rest => do
    waitpid pid .WUNTRACED
    if !st.ifexited && !st.ifsignaled then waitLoop pid rest else pure ()

/-- What the environment answers to the calls of a launcher, in the observed process. -/
structure Env where
  /-- Return value of the first `fork`. -/
  fork1 : Int
  /-- Return value of the second `fork` (`PipeRedirect` only). -/
  fork2 : Int
  /-- Whether `execvp` succeeds. -/
  execOk : Bool
  /-- Return value of `open`. -/
  openRet : Int
  /-- Return value of `pipe`. -/
  pipeRet : Int
  /-- The descriptors `fpipe[0]` and `fpipe[1]`. -/
  fpipe0 : Int
  fpipe1 : Int
  /-- The status word after each `waitpid` of a foreground wait loop. -/
  waits : List WStatus

/-- The state in which a function is entered: the vector, and nothing done yet. -/
def start (args : Argv) : PState := ⟨args, []⟩

/-! ## `StartProcess` -/

/-- Lines 70-97. -/
def StartProcess (env : Env) (k : Nat) : Proc Unit := do
  if k > 0 then
    setNull k
  let pid ← fork env.fork1
  if pid = 0 then
    let args ← getArgs
    let _ ← execvp env.execOk args
    perror "Program execution failed"
    if k = 0 then
      exit 1
  if k = 0 then
    waitLoop pid env.waits
  else
    fprintf_stderr "Starting background process..."
    waitpid (-1) .WNOHANG

/-! ## `CopyArgs` and `PipeRedirect` -/

/-- Lines 57-66: cells `0 .. argc-1` are duplicated, cell `argc` is `NULL`. -/
def CopyArgs (argc : Nat) (args : Argv) : Argv :=
  (List.range argc).map (fun k => cell args k) ++ [none]

/-- The call `pipe(fpipe)`. -/
def pipe (ret : Int) : Proc Int := do
  emit (.pipe ret)
  pure ret

/-- The call `dup2(oldfd, newfd)`. -/
def dup2 (oldfd newfd : Int) : Proc Unit := emit (.dup2 oldfd newfd)

/-- The call `close(fd)`. -/
def close (fd : Int) : Proc Unit := emit (.close fd)

/-- The call `wait(0)`. -/
def wait : Proc Unit := emit .wait

/-- Lines 101-138. -/
def PipeRedirect (env : Env) (k : Nat) : Proc Unit := do
  let args ← getArgs
  let copy_args := CopyArgs k args
  if (← pipe env.pipeRet) = -1 then
    perror "pipe redirection failed"
  else
    if (← fork env.fork1) = 0 then
      dup2 env.fpipe1 STDOUT_FILENO
      close env.fpipe0
      close env.fpipe1
      let _ ← execvp env.execOk copy_args
      perror "First program execution failed"
      exit 1
    if (← fork env.fork2) = 0 then
      dup2 env.fpipe0 STDIN_FILENO
      close env.fpipe1
      close env.fpipe0
      let _ ← execvp env.execOk ((← getArgs).drop (k + 1))
      perror "Second program execution failed"
      exit 1
    close env.fpipe0
    close env.fpipe1
    wait
    wait

/-! ## `IORedirect` -/

/-- The call `open(path, flags, mode)`, returning `ret`. -/
def openFile (ret : Int) (path : Option String) (flags : OpenFlags) (perm : Nat) : Proc Int := do
  emit (.openFile path flags perm ret)
  pure ret

/-- Lines 142-180. -/
def IORedirect (env : Env) (k : Nat) (ioMode : Nat) : Proc Unit := do
  let pid ← fork env.fork1
  if pid = 0 then
    let args ← getArgs
    let fd ←
      if ioMode = 0 then
        openFile env.openRet (cell args (k + 1)) .O_RDONLY mode
      else
        openFile env.openRet (cell args (k + 1)) .O_WRONLY_CREAT_TRUNC mode
    if fd < 0 then
      fprintf_stderr "File error"
    else
      dup2 fd ioMode
      close fd
      setNull k
      setNull (k + 1)
      if (← execvp env.execOk (← getArgs)) = -1 then
        perror "SHELL"
      exit EXIT_FAILURE
  else if pid < 0 then
    perror "SHELL"
  else
    waitLoop pid env.waits

/-! ## The dispatch of `main` -/

/-- The table `options` of line 184. -/
def options : List String := ["<", ">", "|", "&"]

/-- The `for` loop of lines 222-225: the first index of `options` whose string equals the
token, `4` when there is none. -/
def findOption (tok : String) : Nat := options.findIdx (fun o => tok == o)

/-- Record a launcher call with the vector as it is handed over. -/
def enter (c : Argv → Call) : Proc Unit := fun s =>
  .ok () { s with trace := s.trace ++ [.call (c s.args)] }

/-- The `while` loop of lines 221-242, from index `k`; the value is `found`. -/
def scanLoop (env : Env) : Nat → Nat → Proc Nat
  | 0, _ => fun s => .stop .fuelOut s
  | fuel + 1, k => do
    match cell (← getArgs) k with
    | none => pure 0
    | some tok =>
      let option := findOption tok
      if option < 4 then
        if option < 3 && (cell (← getArgs) (k + 1)).isNone then
          fprintf_stderr "SHELL: parameter missing\n"
        else if option < 2 then
          enter (.IORedirect · k option)
          IORedirect env k option
        else if option = 2 then
          enter (.PipeRedirect · k)
          PipeRedirect env k
        else if option = 3 then
          enter (.StartProcess · k)
          StartProcess env k
        pure 1
      else
        scanLoop env fuel (k + 1)

/-- Lines 219-245, the branch of `main` for a command that is not a built-in. `found` is reset
in line 195 at the start of the iteration. -/
def dispatch (env : Env) : Proc Unit := do
  let found ← scanLoop env (← getArgs).length 1
  if found = 0 then
    enter (.StartProcess · 0)
    StartProcess env 0

/-- How an iteration of the `do ... while (1)` loop of `main` ends. -/
inductive Ctl
  /-- The next iteration follows (`continue`, or the end of the body). -/
  | next
  /-- The loop is left (`break`). -/
  | leave
  deriving DecidableEq, Repr

/-- The call `chdir(path)`. -/
def chdir (path : String) : Proc Unit := emit (.chdir path)

/-- Lines 202-247, the body of the loop of `main` after `BreakLine`: `pwd` is the value of
`getenv("HOME")`. -/
def mainBody (env : Env) (pwd : Option String) : Proc Ctl := do
  match cell (← getArgs) 0 with
  | none => pure .next
  | some a0 =>
    if a0 = "exit" then
      pure .leave
    else if a0 = "cd" then
      match cell (← getArgs) 1 with
      | none =>
        match pwd with
        | none => fun s => .stop .crashed s
        | some home =>
          if home ≠ "" then
            chdir home
          pure .next
      | some a1 =>
        chdir a1
        pure .next
    else
      dispatch env
      pure .next

/-! ## `BreakLine` -/

/-- The terminator of a C string. -/
def NUL : Char := Char.ofNat 0

/-- The macro `TOKEN_DELIM`, the string `" \t\r\n\a"` of line 20. -/
def TOKEN_DELIM : List Char := [' ', '\t', '\r', '\n', Char.ofNat 7]

/-- The macro `BUFSIZE` of line 19. -/
def BUFSIZE : Nat := 64

/-- The character `mem[p]` of a buffer. -/
def charAt (mem : List Char) (p : Nat) : Char := mem.getD p NUL

/-- The C string that starts at index `p` of a buffer: the characters up to the next
terminator. -/
def cstr (mem : List Char) (p : Nat) : List Char := (mem.drop p).takeWhile (fun c => c != NUL)

/-- The library call `strspn(mem + p, accept)`: the length of the longest run from `p` of
characters that occur in `accept`. -/
def strspn (mem : List Char) (p : Nat) (accept : List Char) : Nat :=
  ((mem.drop p).takeWhile (fun c => c != NUL && accept.contains c)).length

/-- The library call `strcspn(mem + p, reject)`: the length of the longest run from `p` of
characters that do not occur in `reject`. -/
def strcspn (mem : List Char) (p : Nat) (reject : List Char) : Nat :=
  ((mem.drop p).takeWhile (fun c => c != NUL && !reject.contains c)).length

/-- What a call of `strtok` leaves: the pointer it returns (`none` is `NULL`), the buffer, and
the pointer it keeps for the next call. -/
structure Strtok where
  token : Option Nat
  mem : List Char
  save : Nat
  deriving DecidableEq, Repr

/-- The library call `strtok(s, delim)` of the C standard on the buffer `mem`, `save` being the
pointer kept by the previous call: the search starts at `s`, or at `save` when `s` is `NULL`;
delimiters are stepped over; at the terminator there is no token; else the token runs up to the
next delimiter, which is overwritten by a terminator, or up to the end of the string. -/
def strtok (mem : List Char) (save : Nat) (s : Option Nat) (delim : List Char) : Strtok :=
  let s := s.getD save
  let s := s + strspn mem s delim
  if charAt mem s = NUL then
    ⟨none, mem, s⟩
  else
    let e := s + strcspn mem s delim
    if charAt mem e = NUL then
      ⟨some s, mem, e⟩
    else
      ⟨some s, mem.set e NUL, e + 1⟩

/-- How a call of `BreakLine` ends. -/
inductive BLResult
  /-- The call returns the array `tokens`, all `bufsize` cells of it; the buffer is left as
  `string`. -/
  | ret (tokens : List (Option Nat)) (string : List Char)
  /-- The call prints `memory allocation failure` and leaves by `exit(EXIT_FAILURE)`. -/
  | exitFailure
  /-- The model of the loop ran out of fuel. -/
  | fuelOut
  deriving DecidableEq, Repr

/-- The `while` loop of lines 36-50 and the lines 51-52 behind it.  `allocOk n` tells whether
an allocation of `n` cells succeeds; new cells hold `junk`. -/
def BreakLine.loop (allocOk : Nat → Bool) (junk : Option Nat) :
    Nat → List Char → Nat → Option Nat → List (Option Nat) → Nat → Nat → BLResult
  | 0, _, _, _, _, _, _ => .fuelOut
  | fuel + 1, string, save, token, tokens, k, bufsize =>
    match token with
    | none => .ret (tokens.set k none) string
    | some t =>
      let tokens := tokens.set k (some t)
      let k := k + 1
      if k ≥ bufsize then
        let bufsize := bufsize + BUFSIZE
        if allocOk bufsize then
          let tokens := tokens ++ List.replicate BUFSIZE junk
          let r := strtok string save none TOKEN_DELIM
          BreakLine.loop allocOk junk fuel r.mem r.save r.token tokens k bufsize
        else
          .exitFailure
      else
        let r := strtok string save none TOKEN_DELIM
        BreakLine.loop allocOk junk fuel r.mem r.save r.token tokens k bufsize

/-- Lines 24-53.  The buffer `string` holds the line; the tokens returned are indices into
it.  The counters `k` and `bufsize` are naturals: the `int` counters of the source do not wrap
on a line of fewer than `2^31` characters. -/
def BreakLine (allocOk : Nat → Bool) (junk : Option Nat) (string : List Char) : BLResult :=
  let bufsize := BUFSIZE
  let k := 0
  if allocOk bufsize then
    let tokens := List.replicate bufsize junk
    let r := strtok string 0 (some 0) TOKEN_DELIM
    BreakLine.loop allocOk junk (string.length + 1) r.mem r.save r.token tokens k bufsize
  else
    .exitFailure

/-- The maximal runs of characters outside `TOKEN_DELIM` in a string, from left to right: the
string is cut at every delimiter and the empty pieces are dropped. -/
def maximalRuns (s : List Char) : List (List Char) :=
  (s.splitOnP (fun c => TOKEN_DELIM.contains c)).filter (fun t => !t.isEmpty)

/-! ## Notions used in the statements and proofs -/

/-- A well-formed vector: the tokens, the terminator, and whatever the array holds behind
it. -/
def vec (toks : List String) (rest : Argv) : Argv := toks.map some ++ none :: rest

/-- The launcher calls recorded in a trace, in order. -/
def callsOf : List Event → List Call
  | [] => []
  | .call c :: tr => c :: callsOf tr
  | _ :: tr => callsOf tr

/-- The diagnostic of line 229. -/
def missing : Event := .stderr "SHELL: parameter missing\n"

/-- Events other than launcher calls and the diagnostic of the dispatch. -/
def quiet : Event → Bool
  | .call _ => false
  | .stderr msg => msg != "SHELL: parameter missing\n"
  | _ => true

/-- The computation only appends quiet events to the trace. -/
def Quiet {α : Type} (m : Proc α) : Prop :=
  ∀ s, ∃ tr, (m s).trace = s.trace ++ tr ∧ ∀ e ∈ tr, quiet e = true

/-- The token at index `p` of the buffer `pre ++ rest ++ NUL :: tail` is settled as the string
`w`: its terminator lies in `pre`, or `pre` ends with it and nothing is left to search. -/
def Settled (pre rest : List Char) (p : Nat) (w : List Char) : Prop :=
  NUL ∉ w ∧ ((∃ a b, pre = a ++ w ++ NUL :: b ∧ a.length = p)
    ∨ (rest = [] ∧ ∃ a, pre = a ++ w ∧ a.length = p))

/-- What the loop of `BreakLine` has in hand on entry: no token, or a settled token, together
with the strings still to come and the fuel that is enough for them. -/
def Pending (pre rest : List Char) (token : Option Nat) (strs : List (List Char))
    (fuel : Nat) : Prop :=
  (token = none ∧ strs = [] ∧ 1 ≤ fuel)
  ∨ (∃ t w, token = some t ∧ Settled pre rest t w ∧ strs = w :: maximalRuns rest
      ∧ rest.length + 2 ≤ fuel)

/-- The array after the growth step of lines 40-47, when the allocation succeeds. -/
def grown (junk : Option Nat) (tokens : List (Option Nat)) (k bufsize : Nat) :
    List (Option Nat) × Nat :=
  if k ≥ bufsize then (tokens ++ List.replicate BUFSIZE junk, bufsize + BUFSIZE)
  else (tokens, bufsize)


/-! ## One iteration of the loop of `main` -/

/-- The vector `main` reads after `BreakLine`: each pointer stands for the C string that starts
there in the buffer. -/
def argvOf (tokens : List (Option Nat)) (mem : List Char) : Argv :=
  tokens.map (fun p => p.map (fun i => String.mk (cstr mem i)))

/-- Lines 199-247: one iteration of the loop of `main`, `cmdtext` being the buffer that
`getline` filled. -/
def mainIter (allocOk : Nat → Bool) (junk : Option Nat) (env : Env) (pwd : Option String)
    (cmdtext : List Char) : Res Ctl :=
  match BreakLine allocOk junk cmdtext with
  | .ret tokens string => mainBody env pwd (start (argvOf tokens string))
  | .exitFailure =>
    .stop (.exited EXIT_FAILURE)
      ⟨[], [.stderr "memory allocation failure\n", .exit EXIT_FAILURE]⟩
  | .fuelOut => .stop .fuelOut ⟨[], []⟩

/-! # Theorems -/

/-! ## Vectors -/

@[simp] theorem bind_apply {α β : Type} (m : Proc α) (f : α → Proc β) (s : PState) :
    (m >>= f) s = match m s with
      | .ok a s1 => f a s1
      | .stop h s1 => .stop h s1 := rfl

@[simp] theorem pure_apply {α : Type} (a : α) (s : PState) : (pure a : Proc α) s = .ok a s := rfl

theorem argList_vec (toks : List String) (rest : Argv) : argList (vec toks rest) = toks := by
  induction toks with
  | nil => simp [vec, argList]
  | cons t ts ih => simpa [vec, argList] using ih

theorem argList_set (toks : List String) (rest : Argv) (k : Nat) (hk : k ≤ toks.length) :
    argList ((vec toks rest).set k none) = toks.take k := by
  induction toks generalizing k with
  | nil =>
    cases k <;> simp [vec, argList]
  | cons t ts ih =>
    cases k with
    | zero => simp [vec, argList]
    | succ k =>
      have := ih k (by simpa using hk)
      simpa [vec, argList] using this

theorem argList_set_set (toks : List String) (rest : Argv) (k : Nat) (hk : k ≤ toks.length) :
    argList (((vec toks rest).set k none).set (k + 1) none) = toks.take k := by
  induction toks generalizing k with
  | nil =>
    cases k <;> simp [vec, argList]
  | cons t ts ih =>
    cases k with
    | zero => simp [vec, argList]
    | succ k =>
      have := ih k (by simpa using hk)
      simpa [vec, argList] using this

theorem cell_vec (toks : List String) (rest : Argv) (i : Nat) (hi : i < toks.length) :
    cell (vec toks rest) i = some toks[i] := by
  simp [cell, vec, List.getD, List.getElem?_append_left, hi]

theorem cell_vec_length (toks : List String) (rest : Argv) :
    cell (vec toks rest) toks.length = none := by
  induction toks with
  | nil => simp [cell, vec]
  | cons t ts ih => simpa [cell, vec] using ih

theorem cell_set (args : Argv) (k i : Nat) (h : i ≠ k) :
    cell (args.set k none) i = cell args i := by
  simp [cell, List.getD, List.getElem?_set, Ne.symm h]

theorem drop_vec (toks : List String) (rest : Argv) (n : Nat) (hn : n ≤ toks.length) :
    (vec toks rest).drop n = vec (toks.drop n) rest := by
  induction toks generalizing n with
  | nil =>
    have : n = 0 := by simpa using hn
    subst this
    simp [vec]
  | cons t ts ih =>
    cases n with
    | zero => simp [vec]
    | succ n =>
      have := ih n (by simpa using hn)
      simpa [vec] using this

theorem CopyArgs_vec (toks : List String) (rest : Argv) (k : Nat) (hk : k ≤ toks.length) :
    CopyArgs k (vec toks rest) = vec (toks.take k) [] := by
  unfold CopyArgs
  simp only [vec, List.append_cancel_right_eq]
  apply List.ext_getElem
  · simp [hk]
  · intro i h1 h2
    simp only [List.length_map, List.length_range] at h1
    have hi : i < toks.length := by omega
    have := cell_vec toks rest i hi
    simp only [vec] at this
    simp [this]

theorem head_vec (toks : List String) (rest : Argv) : cell (vec toks rest) 0 = toks.head? := by
  cases toks <;> simp [cell, vec]

theorem cell_set_zero (args : Argv) (k : Nat) (hk : 0 < k) :
    cell (args.set k none) 0 = cell args 0 :=
  cell_set args k 0 (by omega)


/-! ## What a launcher can emit -/

theorem quiet_pure {α : Type} (a : α) : Quiet (pure a : Proc α) :=
  fun s => ⟨[], by simp [Res.trace, Res.state], by simp⟩

theorem quiet_halt {α : Type} (h : Halt) : Quiet (fun s => (.stop h s : Res α)) :=
  fun s => ⟨[], by simp [Res.trace, Res.state], by simp⟩

theorem quiet_bind {α β : Type} {m : Proc α} {f : α → Proc β} (hm : Quiet m)
    (hf : ∀ a, Quiet (f a)) : Quiet (m >>= f) := by
  intro s
  obtain ⟨tr, h1, h2⟩ := hm s
  rw [bind_apply]
  cases hms : m s with
  | ok a s1 =>
    obtain ⟨tr2, h3, h4⟩ := hf a s1
    rw [hms] at h1
    simp only [Res.trace, Res.state] at h1 h3 ⊢
    refine ⟨tr ++ tr2, by rw [h3, h1, List.append_assoc], ?_⟩
    intro e he
    rcases List.mem_append.1 he with h | h
    · exact h2 e h
    · exact h4 e h
  | stop h s1 =>
    rw [hms] at h1
    exact ⟨tr, h1, h2⟩

theorem quiet_ite {α : Type} {c : Prop} [Decidable c] {m1 m2 : Proc α} (h1 : Quiet m1)
    (h2 : Quiet m2) : Quiet (if c then m1 else m2) := by
  split
  · exact h1
  · exact h2

theorem quiet_emit {e : Event} (h : quiet e = true) : Quiet (emit e) :=
  fun s => ⟨[e], by simp [Shell.emit, Res.trace, Res.state], by simpa using h⟩

theorem quiet_getArgs : Quiet getArgs :=
  fun s => ⟨[], by simp [Shell.getArgs, Res.trace, Res.state], by simp⟩

theorem quiet_setNull (i : Nat) : Quiet (setNull i) :=
  fun s => ⟨[], by simp [Shell.setNull, Res.trace, Res.state], by simp⟩

theorem quiet_waitLoop (pid : Int) (ws : List WStatus) : Quiet (waitLoop pid ws) := by
  induction ws with
  | nil => exact quiet_halt _
  | cons st rest ih =>
    unfold Shell.waitLoop
    exact quiet_bind (quiet_emit rfl) (fun _ => quiet_ite ih (quiet_pure _))

theorem quiet_StartProcess (env : Env) (k : Nat) : Quiet (StartProcess env k) := by
  simp only [Shell.StartProcess, fork, execvp, exit, perror, fprintf_stderr, waitpid]
  repeat' first
    | exact quiet_emit rfl
    | exact quiet_getArgs
    | exact quiet_setNull _
    | exact quiet_waitLoop _ _
    | exact quiet_halt _
    | exact quiet_pure _
    | apply quiet_ite
    | apply quiet_bind
    | intro _

theorem quiet_PipeRedirect (env : Env) (k : Nat) : Quiet (PipeRedirect env k) := by
  simp only [Shell.PipeRedirect, fork, pipe, execvp, exit, perror, dup2, close, wait]
  repeat' first
    | exact quiet_emit rfl
    | exact quiet_getArgs
    | exact quiet_halt _
    | exact quiet_pure _
    | apply quiet_ite
    | apply quiet_bind
    | intro _

theorem quiet_IORedirect (env : Env) (k ioMode : Nat) : Quiet (IORedirect env k ioMode) := by
  simp only [Shell.IORedirect, fork, openFile, execvp, exit, perror, dup2, close,
    fprintf_stderr]
  repeat' first
    | exact quiet_emit rfl
    | exact quiet_getArgs
    | exact quiet_setNull _
    | exact quiet_waitLoop _ _
    | exact quiet_halt _
    | exact quiet_pure _
    | apply quiet_ite
    | apply quiet_bind
    | intro _

/-! ## The scan of `main` -/

theorem findOption_not_mem (t : String) (h : t ∉ options) : findOption t = 4 := by
  simp only [options, List.mem_cons, List.mem_singleton, List.not_mem_nil, or_false,
    not_or] at h
  obtain ⟨h1, h2, h3, h4⟩ := h
  have e1 : (t == "<") = false := by simpa using h1
  have e2 : (t == ">") = false := by simpa using h2
  have e3 : (t == "|") = false := by simpa using h3
  have e4 : (t == "&") = false := by simpa using h4
  simp [findOption, options, List.findIdx_cons, e1, e2, e3, e4]

/-- Tokens that are not operators are stepped over. -/
theorem scanLoop_skip (env : Env) (toks : List String) (rest : Argv) (n : Nat) :
    ∀ (fuel j : Nat) (s : PState), s.args = vec toks rest → j + n ≤ toks.length →
      (∀ t ∈ (toks.take (j + n)).drop j, t ∉ options) →
      scanLoop env (fuel + n) j s = scanLoop env fuel (j + n) s := by
  induction n with
  | zero => intro fuel j s _ _ _; rfl
  | succ n ih =>
    intro fuel j s hs hj hno
    have hjlt : j < toks.length := by omega
    have hmem : toks[j] ∈ (toks.take (j + (n + 1))).drop j := by
      rw [List.mem_iff_getElem]
      refine ⟨0, by simp; omega, by simp⟩
    have h4 : findOption toks[j] = 4 := findOption_not_mem _ (hno _ hmem)
    have hstep : scanLoop env (fuel + (n + 1)) j s = scanLoop env (fuel + n) (j + 1) s := by
      rw [show fuel + (n + 1) = (fuel + n) + 1 by omega]
      conv => lhs; unfold scanLoop
      simp [getArgs, hs, cell_vec toks rest j hjlt, h4]
    rw [hstep, ih fuel (j + 1) s hs (by omega), show j + 1 + n = j + (n + 1) by omega]
    intro t ht
    apply hno
    rw [show j + 1 + n = j + (n + 1) by omega] at ht
    rw [← List.drop_drop] at ht
    exact List.mem_of_mem_drop ht

theorem callsOf_append (a b : List Event) : callsOf (a ++ b) = callsOf a ++ callsOf b := by
  induction a with
  | nil => rfl
  | cons e a ih => cases e <;> simp [callsOf, ih]

theorem callsOf_quiet (tr : List Event) (h : ∀ e ∈ tr, quiet e = true) : callsOf tr = [] := by
  induction tr with
  | nil => rfl
  | cons e tr ih =>
    have he := h e (List.mem_cons_self _ _)
    have ht := ih (fun e' he' => h e' (List.mem_cons_of_mem _ he'))
    cases e <;> simp_all [callsOf, quiet]

/-- Scanning from index 1 arrives at index `k` when no token in between is an operator. -/
theorem scanLoop_reach (env : Env) (toks : List String) (rest : Argv) (k : Nat)
    (hk1 : 1 ≤ k) (hk : k ≤ toks.length) (hno : ∀ t ∈ (toks.take k).drop 1, t ∉ options) :
    scanLoop env (vec toks rest).length 1 (start (vec toks rest))
      = scanLoop env (toks.length - k + rest.length + 1 + 1) k (start (vec toks rest)) := by
  have hlen : (vec toks rest).length = (toks.length - k + rest.length + 1 + 1) + (k - 1) := by
    simp [vec]; omega
  rw [hlen, scanLoop_skip env toks rest (k - 1) _ 1 (start (vec toks rest)) rfl (by omega)
    (by rw [show 1 + (k - 1) = k by omega]; exact hno), show 1 + (k - 1) = k by omega]

/-- The scan step at an operator that is followed by a token, or is `&`. -/
theorem scanLoop_at (env : Env) (toks : List String) (rest : Argv) (k fuel : Nat)
    (hk : k < toks.length) (s : PState) (hs : s.args = vec toks rest) :
    (toks[k] = "<" → k + 1 < toks.length →
      scanLoop env (fuel + 1) k s
        = (do enter (.IORedirect · k 0); IORedirect env k 0; pure 1) s)
    ∧ (toks[k] = ">" → k + 1 < toks.length →
      scanLoop env (fuel + 1) k s
        = (do enter (.IORedirect · k 1); IORedirect env k 1; pure 1) s)
    ∧ (toks[k] = "|" → k + 1 < toks.length →
      scanLoop env (fuel + 1) k s
        = (do enter (.PipeRedirect · k); PipeRedirect env k; pure 1) s)
    ∧ (toks[k] = "&" →
      scanLoop env (fuel + 1) k s
        = (do enter (.StartProcess · k); StartProcess env k; pure 1) s) := by
  have f0 : findOption "<" = 0 := by decide
  have f1 : findOption ">" = 1 := by decide
  have f2 : findOption "|" = 2 := by decide
  have f3 : findOption "&" = 3 := by decide
  refine ⟨fun h h2 => ?_, fun h h2 => ?_, fun h h2 => ?_, fun h => ?_⟩
  · conv => lhs; unfold scanLoop
    simp [getArgs, hs, cell_vec toks rest k hk, cell_vec toks rest (k + 1) h2, h, f0]
  · conv => lhs; unfold scanLoop
    simp [getArgs, hs, cell_vec toks rest k hk, cell_vec toks rest (k + 1) h2, h, f1]
  · conv => lhs; unfold scanLoop
    simp [getArgs, hs, cell_vec toks rest k hk, cell_vec toks rest (k + 1) h2, h, f2]
  · conv => lhs; unfold scanLoop
    simp [getArgs, hs, cell_vec toks rest k hk, h, f3]

/-- The scan step at `<`, `>` or `|` as the last token. -/
theorem scanLoop_missing (env : Env) (toks : List String) (rest : Argv) (k fuel : Nat)
    (hk : k + 1 = toks.length) (s : PState) (hs : s.args = vec toks rest)
    (hop : toks[k] = "<" ∨ toks[k] = ">" ∨ toks[k] = "|") :
    scanLoop env (fuel + 1) k s = .ok 1 ⟨s.args, s.trace ++ [missing]⟩ := by
  have f0 : findOption "<" = 0 := by decide
  have f1 : findOption ">" = 1 := by decide
  have f2 : findOption "|" = 2 := by decide
  have hc : cell (vec toks rest) (k + 1) = none := by rw [hk]; exact cell_vec_length _ _
  conv => lhs; unfold scanLoop
  rcases hop with h | h | h <;>
  simp [getArgs, hs, cell_vec toks rest k (by omega), hc, h, f0, f1, f2, fprintf_stderr, emit,
    missing]

/-- The scan arrives at the terminator when no token from index 1 on is an operator. -/
theorem scanLoop_end (env : Env) (toks : List String) (rest : Argv) (hne : toks ≠ [])
    (hno : ∀ t ∈ toks.drop 1, t ∉ options) :
    scanLoop env (vec toks rest).length 1 (start (vec toks rest))
      = .ok 0 (start (vec toks rest)) := by
  have hlen : 1 ≤ toks.length := by
    cases toks with
    | nil => exact absurd rfl hne
    | cons t ts => simp
  rw [scanLoop_reach env toks rest toks.length hlen (le_refl _) (by simpa using hno)]
  conv => lhs; unfold scanLoop
  simp [getArgs, start, cell_vec_length]

/-- A launcher entered from the dispatch: the trace of the launcher starts with the call, and
the call is the only one. -/
theorem enter_launcher {L : Proc Unit} (hL : Quiet L) (c : Argv → Call) (args : Argv) :
    ((do enter c; L; pure 1 : Proc Nat) (start args)).trace.head? = some (.call (c args))
    ∧ callsOf ((do enter c; L; pure 1 : Proc Nat) (start args)).trace = [c args]
    ∧ missing ∉ ((do enter c; L; pure 1 : Proc Nat) (start args)).trace
    ∧ ∀ a s, (do enter c; L; pure 1 : Proc Nat) (start args) = .ok a s → a = 1 := by
  obtain ⟨tr, h1, h2⟩ := hL ⟨args, [.call (c args)]⟩
  have hq : ∀ e ∈ tr, e ≠ missing := by
    intro e he hm
    have := h2 e he
    rw [hm] at this
    exact absurd this (by decide)
  cases hr : L ⟨args, [.call (c args)]⟩ with
  | ok a s1 =>
    rw [hr] at h1
    simp only [Res.trace, Res.state] at h1
    simp only [bind_apply, enter, start, List.nil_append, hr, pure_apply, Res.trace, Res.state,
      h1, List.singleton_append, List.head?_cons, callsOf, callsOf_quiet tr h2, true_and]
    refine ⟨?_, ?_⟩
    · intro hm
      rcases List.mem_cons.1 hm with h | h
      · simp [missing] at h
      · exact hq _ h rfl
    · intro a s h
      injection h with h _
      exact h.symm
  | stop h s1 =>
    rw [hr] at h1
    simp only [Res.trace, Res.state] at h1
    simp only [bind_apply, enter, start, List.nil_append, hr, Res.trace, Res.state,
      h1, List.singleton_append, List.head?_cons, callsOf, callsOf_quiet tr h2, true_and]
    refine ⟨?_, ?_⟩
    · intro hm
      rcases List.mem_cons.1 hm with h | h
      · simp [missing] at h
      · exact hq _ h rfl
    · intro a s h
      exact absurd h (by simp)

/-- After a scan that found an operator the dispatch does nothing more. -/
theorem dispatch_found (env : Env) (args : Argv) (r : Res Nat)
    (hr : scanLoop env args.length 1 (start args) = r) (h1 : ∀ a s, r = .ok a s → a = 1) :
    (dispatch env (start args)).trace = r.trace
    ∧ (dispatch env (start args)).args = r.args
    ∧ (∀ s, r = .ok 1 s → dispatch env (start args) = .ok () s) := by
  cases r with
  | ok a s =>
    have ha := h1 a s rfl
    subst ha
    simp [dispatch, getArgs, start, Res.trace, Res.args, Res.state] at hr ⊢
    simp [hr]
  | stop h s =>
    simp [dispatch, getArgs, start, Res.trace, Res.args, Res.state] at hr ⊢
    simp [hr]

/-- For a command that is not a built-in the body of the loop is the dispatch. -/
theorem mainBody_dispatch (env : Env) (pwd : Option String) (toks : List String) (rest : Argv)
    (hne : toks ≠ []) (hexit : toks.head? ≠ some "exit") (hcd : toks.head? ≠ some "cd") :
    (mainBody env pwd (start (vec toks rest))).trace
        = (dispatch env (start (vec toks rest))).trace
    ∧ (mainBody env pwd (start (vec toks rest))).args
        = (dispatch env (start (vec toks rest))).args := by
  cases toks with
  | nil => exact absurd rfl hne
  | cons t ts =>
    have h1 : t ≠ "exit" := by simpa using hexit
    have h2 : t ≠ "cd" := by simpa using hcd
    have hc : cell (vec (t :: ts) rest) 0 = some t := by simp [cell, vec]
    cases hd : dispatch env (start (vec (t :: ts) rest)) <;>
    simp [mainBody, getArgs, start, hc, h1, h2, Res.trace, Res.args, Res.state] <;>
    simp [start] at hd <;> simp [hd]

/-- The dispatch after a scan that enters a launcher. -/
theorem dispatch_launch (env : Env) (args : Argv) (L : Proc Unit) (hL : Quiet L)
    (c : Argv → Call)
    (h : scanLoop env args.length 1 (start args)
      = (do enter c; L; pure 1 : Proc Nat) (start args)) :
    (dispatch env (start args)).trace.head? = some (.call (c args))
    ∧ callsOf (dispatch env (start args)).trace = [c args]
    ∧ .stderr "SHELL: parameter missing\n" ∉ (dispatch env (start args)).trace := by
  obtain ⟨e1, e2, e3, e4⟩ := enter_launcher hL c args
  obtain ⟨d1, _, _⟩ := dispatch_found env args _ h e4
  rw [d1]
  exact ⟨e1, e2, e3⟩

/-- The dispatch at `<`, `>` or `|` as the last token, when it is the first operator. -/
theorem dispatch_missing (env : Env) (toks : List String) (rest : Argv) (k : Nat)
    (hk1 : 1 ≤ k) (hk : k + 1 = toks.length)
    (hfirst : ∀ t ∈ (toks.take k).drop 1, t ∉ options)
    (hop : toks[k] = "<" ∨ toks[k] = ">" ∨ toks[k] = "|") :
    dispatch env (start (vec toks rest))
      = .ok () ⟨vec toks rest, [.stderr "SHELL: parameter missing\n"]⟩ := by
  have hreach := scanLoop_reach env toks rest k hk1 (by omega) hfirst
  have hm := scanLoop_missing env toks rest k (toks.length - k + rest.length + 1) hk
    (start (vec toks rest)) rfl hop
  rw [← hreach] at hm
  have := (dispatch_found env (vec toks rest) _ hm
    (by intro a s h; injection h with h _; exact h.symm)).2.2 _ rfl
  simpa [start, missing] using this

/-- The dispatch at the first operator, when a token follows it or it is `&`. -/
theorem dispatch_op (env : Env) (toks : List String) (rest : Argv) (k : Nat)
    (hk1 : 1 ≤ k) (hk : k < toks.length)
    (hfirst : ∀ t ∈ (toks.take k).drop 1, t ∉ options) :
    (toks[k] = "<" → k + 1 < toks.length →
      (dispatch env (start (vec toks rest))).trace.head?
          = some (.call (.IORedirect (vec toks rest) k 0))
      ∧ callsOf (dispatch env (start (vec toks rest))).trace
          = [.IORedirect (vec toks rest) k 0]
      ∧ .stderr "SHELL: parameter missing\n" ∉ (dispatch env (start (vec toks rest))).trace)
    ∧ (toks[k] = ">" → k + 1 < toks.length →
      (dispatch env (start (vec toks rest))).trace.head?
          = some (.call (.IORedirect (vec toks rest) k 1))
      ∧ callsOf (dispatch env (start (vec toks rest))).trace
          = [.IORedirect (vec toks rest) k 1]
      ∧ .stderr "SHELL: parameter missing\n" ∉ (dispatch env (start (vec toks rest))).trace)
    ∧ (toks[k] = "|" → k + 1 < toks.length →
      (dispatch env (start (vec toks rest))).trace.head?
          = some (.call (.PipeRedirect (vec toks rest) k))
      ∧ callsOf (dispatch env (start (vec toks rest))).trace
          = [.PipeRedirect (vec toks rest) k]
      ∧ .stderr "SHELL: parameter missing\n" ∉ (dispatch env (start (vec toks rest))).trace)
    ∧ (toks[k] = "&" →
      (dispatch env (start (vec toks rest))).trace.head?
          = some (.call (.StartProcess (vec toks rest) k))
      ∧ callsOf (dispatch env (start (vec toks rest))).trace
          = [.StartProcess (vec toks rest) k]
      ∧ .stderr "SHELL: parameter missing\n" ∉ (dispatch env (start (vec toks rest))).trace) := by
  have hreach := scanLoop_reach env toks rest k hk1 (by omega) hfirst
  obtain ⟨a0, a1, a2, a3⟩ := scanLoop_at env toks rest k
    (toks.length - k + rest.length + 1) hk (start (vec toks rest)) rfl
  rw [← hreach] at a0 a1 a2 a3
  refine ⟨fun h h2 => ?_, fun h h2 => ?_, fun h h2 => ?_, fun h => ?_⟩
  · exact dispatch_launch env _ _ (quiet_IORedirect env k 0) (.IORedirect · k 0) (a0 h h2)
  · exact dispatch_launch env _ _ (quiet_IORedirect env k 1) (.IORedirect · k 1) (a1 h h2)
  · exact dispatch_launch env _ _ (quiet_PipeRedirect env k) (.PipeRedirect · k) (a2 h h2)
  · exact dispatch_launch env _ _ (quiet_StartProcess env k) (.StartProcess · k) (a3 h)

/-- The dispatch of a vector without operator. -/
theorem dispatch_plain (env : Env) (toks : List String) (rest : Argv) (hne : toks ≠ [])
    (hno : ∀ t ∈ toks.drop 1, t ∉ options) :
    dispatch env (start (vec toks rest))
      = StartProcess env 0 ⟨vec toks rest, [.call (.StartProcess (vec toks rest) 0)]⟩ := by
  have h := scanLoop_end env toks rest hne hno
  simp only [dispatch, bind_apply, getArgs, start] at h ⊢
  simp [h, enter]

/-- A foreground `StartProcess` never writes to the vector. -/
theorem StartProcess_zero_args (env : Env) (s : PState) :
    (StartProcess env 0 s).args = s.args := by
  have hw : ∀ (ws : List WStatus) (pid : Int) (s : PState),
      (waitLoop pid ws s).args = s.args := by
    intro ws
    induction ws with
    | nil => intro pid s; rfl
    | cons st rest ih =>
      intro pid s
      unfold waitLoop
      by_cases hc : (!st.ifexited && !st.ifsignaled) = true
      · simp [waitpid, emit, hc, ih]
      · simp [waitpid, emit, hc, Res.args, Res.state]
  by_cases h0 : env.fork1 = 0
  · cases hx : env.execOk <;>
    simp [StartProcess, fork, emit, execvp, getArgs, perror, exit, h0, hx, Res.args, Res.state]
  · simp [StartProcess, fork, emit, h0, hw]

/-! ## Facts about lists and buffers -/

theorem takeWhile_append_stop {α : Type} (q : α → Bool) (a b : List α) (x : α)
    (ha : ∀ c ∈ a, q c = true) (hx : q x = false) : (a ++ x :: b).takeWhile q = a := by
  induction a with
  | nil => simp [List.takeWhile, hx]
  | cons y a ih =>
    have hy := ha y (List.mem_cons_self _ _)
    simp [List.takeWhile, hy, ih (fun c hc => ha c (List.mem_cons_of_mem _ hc))]

theorem charAt_append (a b : List Char) (x : Char) : charAt (a ++ x :: b) a.length = x := by
  induction a with
  | nil => rfl
  | cons z a ih => simpa [charAt] using ih

theorem set_append_cons (a b : List Char) (x y : Char) :
    (a ++ x :: b).set a.length y = a ++ y :: b := by
  induction a with
  | nil => rfl
  | cons z a ih => simp [ih]

theorem NUL_not_delim : NUL ∉ TOKEN_DELIM := by decide

theorem cstr_append (a tok b : List Char) (h : NUL ∉ tok) :
    cstr (a ++ tok ++ NUL :: b) a.length = tok := by
  unfold cstr
  rw [List.append_assoc, List.drop_left, takeWhile_append_stop]
  · intro c hc
    have : c ≠ NUL := fun e => h (e ▸ hc)
    simpa using this
  · simp

theorem strspn_append (a d b : List Char) (x : Char) (hd : ∀ c ∈ d, c ∈ TOKEN_DELIM)
    (hx : x ∉ TOKEN_DELIM) :
    strspn (a ++ d ++ x :: b) a.length TOKEN_DELIM = d.length := by
  unfold strspn
  rw [List.append_assoc, List.drop_left, takeWhile_append_stop]
  · intro c hc
    have h1 := hd c hc
    have : c ≠ NUL := fun e => NUL_not_delim (e ▸ h1)
    simp [h1, this]
  · simp [hx]

theorem strcspn_append (a t b : List Char) (x : Char)
    (ht : ∀ c ∈ t, c ∉ TOKEN_DELIM) (hn : NUL ∉ t)
    (hx : x = NUL ∨ x ∈ TOKEN_DELIM) :
    strcspn (a ++ t ++ x :: b) a.length TOKEN_DELIM = t.length := by
  unfold strcspn
  rw [List.append_assoc, List.drop_left, takeWhile_append_stop]
  · intro c hc
    have h1 := ht c hc
    have : c ≠ NUL := fun e => hn (e ▸ hc)
    simp [h1, this]
  · rcases hx with h | h
    · simp [h]
    · simp [h]

/-! ## The three ways a call of `strtok` goes -/

/-- Only delimiters are left: there is no token. -/
theorem strtok_none (pre d tail : List Char) (save : Nat) (s : Option Nat)
    (hs : s.getD save = pre.length) (hd : ∀ c ∈ d, c ∈ TOKEN_DELIM) :
    strtok (pre ++ d ++ NUL :: tail) save s TOKEN_DELIM
      = ⟨none, pre ++ d ++ NUL :: tail, (pre ++ d).length⟩ := by
  unfold strtok
  simp only [hs]
  rw [strspn_append pre d tail NUL hd NUL_not_delim]
  have : charAt (pre ++ d ++ NUL :: tail) (pre.length + d.length) = NUL := by
    rw [← List.length_append]; exact charAt_append _ _ _
  rw [if_pos this, List.length_append]

/-- The last token runs up to the end of the string. -/
theorem strtok_last (pre d tok tail : List Char) (save : Nat) (s : Option Nat)
    (hs : s.getD save = pre.length) (hd : ∀ c ∈ d, c ∈ TOKEN_DELIM)
    (ht : ∀ c ∈ tok, c ∉ TOKEN_DELIM) (hn : NUL ∉ tok) (hne : tok ≠ []) :
    strtok (pre ++ d ++ tok ++ NUL :: tail) save s TOKEN_DELIM
      = ⟨some (pre ++ d).length, pre ++ d ++ tok ++ NUL :: tail, (pre ++ d ++ tok).length⟩ := by
  obtain ⟨x, tok', rfl⟩ := List.exists_cons_of_ne_nil hne
  have hx : x ∉ TOKEN_DELIM := ht x (List.mem_cons_self _ _)
  have hxn : x ≠ NUL := fun e => hn (e ▸ List.mem_cons_self _ _)
  unfold strtok
  simp only [hs]
  have e1 : pre ++ d ++ x :: tok' ++ NUL :: tail = pre ++ d ++ x :: (tok' ++ NUL :: tail) := by
    simp
  have hspn : strspn (pre ++ d ++ x :: tok' ++ NUL :: tail) pre.length TOKEN_DELIM = d.length := by
    rw [e1]; exact strspn_append pre d _ x hd hx
  have hc1 : charAt (pre ++ d ++ x :: tok' ++ NUL :: tail) (pre.length + d.length) = x := by
    rw [e1, ← List.length_append]; exact charAt_append _ _ _
  have hcspn : strcspn (pre ++ d ++ x :: tok' ++ NUL :: tail) (pre.length + d.length) TOKEN_DELIM
      = (x :: tok').length := by
    rw [← List.length_append]
    exact strcspn_append (pre ++ d) (x :: tok') tail NUL ht hn (Or.inl rfl)
  have hc2 : charAt (pre ++ d ++ x :: tok' ++ NUL :: tail)
      (pre.length + d.length + (x :: tok').length) = NUL := by
    rw [← List.length_append, ← List.length_append]; exact charAt_append _ _ _
  rw [hspn, hc1, hcspn, hc2, if_neg hxn, if_pos rfl]
  simp [Nat.add_assoc]

/-- A token is followed by a delimiter, which is overwritten. -/
theorem strtok_some (pre d tok r3 tail : List Char) (c : Char) (save : Nat) (s : Option Nat)
    (hs : s.getD save = pre.length) (hd : ∀ c ∈ d, c ∈ TOKEN_DELIM)
    (ht : ∀ c ∈ tok, c ∉ TOKEN_DELIM) (hn : NUL ∉ tok) (hne : tok ≠ [])
    (hc : c ∈ TOKEN_DELIM) :
    strtok (pre ++ d ++ tok ++ c :: (r3 ++ NUL :: tail)) save s TOKEN_DELIM
      = ⟨some (pre ++ d).length, pre ++ d ++ tok ++ NUL :: (r3 ++ NUL :: tail),
          (pre ++ d ++ tok ++ [NUL]).length⟩ := by
  obtain ⟨x, tok', rfl⟩ := List.exists_cons_of_ne_nil hne
  have hx : x ∉ TOKEN_DELIM := ht x (List.mem_cons_self _ _)
  have hxn : x ≠ NUL := fun e => hn (e ▸ List.mem_cons_self _ _)
  have hcn : c ≠ NUL := fun e => NUL_not_delim (e ▸ hc)
  unfold strtok
  simp only [hs]
  generalize hB : r3 ++ NUL :: tail = B
  have e1 : pre ++ d ++ x :: tok' ++ c :: B = pre ++ d ++ x :: (tok' ++ c :: B) := by
    simp
  have hspn : strspn (pre ++ d ++ x :: tok' ++ c :: B) pre.length TOKEN_DELIM = d.length := by
    rw [e1]; exact strspn_append pre d _ x hd hx
  have hc1 : charAt (pre ++ d ++ x :: tok' ++ c :: B) (pre.length + d.length) = x := by
    rw [e1, ← List.length_append]; exact charAt_append _ _ _
  have hcspn : strcspn (pre ++ d ++ x :: tok' ++ c :: B) (pre.length + d.length) TOKEN_DELIM
      = (x :: tok').length := by
    rw [← List.length_append]
    exact strcspn_append (pre ++ d) (x :: tok') B c ht hn (Or.inr hc)
  have hc2 : charAt (pre ++ d ++ x :: tok' ++ c :: B)
      (pre.length + d.length + (x :: tok').length) = c := by
    rw [← List.length_append, ← List.length_append]; exact charAt_append _ _ _
  have hset : (pre ++ d ++ x :: tok' ++ c :: B).set
      (pre.length + d.length + (x :: tok').length) NUL = pre ++ d ++ x :: tok' ++ NUL :: B := by
    rw [← List.length_append, ← List.length_append]; exact set_append_cons _ _ _ _
  rw [hspn, hc1, hcspn, hc2, hset, if_neg hxn, if_neg hcn]
  simp [Nat.add_assoc]

/-! ## The shape of a string, and its maximal runs -/

/-- A string is a run of delimiters, possibly followed by a token, possibly followed by a
delimiter and more. -/
theorem split_cases (rest : List Char) :
    (∀ c ∈ rest, c ∈ TOKEN_DELIM)
    ∨ (∃ d tok, rest = d ++ tok ∧ (∀ c ∈ d, c ∈ TOKEN_DELIM) ∧ tok ≠ []
        ∧ (∀ c ∈ tok, c ∉ TOKEN_DELIM))
    ∨ (∃ d tok c r3, rest = d ++ tok ++ c :: r3 ∧ (∀ c ∈ d, c ∈ TOKEN_DELIM) ∧ tok ≠ []
        ∧ (∀ c ∈ tok, c ∉ TOKEN_DELIM) ∧ c ∈ TOKEN_DELIM) := by
  let p : Char → Bool := fun c => TOKEN_DELIM.contains c
  let q : Char → Bool := fun c => !TOKEN_DELIM.contains c
  have hd : ∀ c ∈ rest.takeWhile p, c ∈ TOKEN_DELIM := by
    intro c hc
    simpa [p] using List.mem_takeWhile_imp hc
  have ht : ∀ c ∈ (rest.dropWhile p).takeWhile q, c ∉ TOKEN_DELIM := by
    intro c hc
    simpa [q] using List.mem_takeWhile_imp hc
  have e1 : rest = rest.takeWhile p ++ rest.dropWhile p := (List.takeWhile_append_dropWhile p rest).symm
  have e2 : rest.dropWhile p = (rest.dropWhile p).takeWhile q ++ (rest.dropWhile p).dropWhile q :=
    (List.takeWhile_append_dropWhile q _).symm
  by_cases h1 : rest.dropWhile p = []
  · left
    intro c hc
    rw [e1, h1, List.append_nil] at hc
    exact hd c hc
  · right
    have hne : (rest.dropWhile p).takeWhile q ≠ [] := by
      intro h
      have hh := List.head_dropWhile_not p rest h1
      obtain ⟨x, xs, hx⟩ := List.exists_cons_of_ne_nil h1
      simp only [hx, List.head_cons] at hh
      rw [hx] at h
      have hxd : x ∉ TOKEN_DELIM := by simpa [p] using hh
      simp [List.takeWhile_cons, q, hxd] at h
    cases h2 : (rest.dropWhile p).dropWhile q with
    | nil =>
      left
      refine ⟨rest.takeWhile p, (rest.dropWhile p).takeWhile q, ?_, hd, hne, ht⟩
      rw [h2, List.append_nil] at e2
      rw [← e2]; exact e1
    | cons c r3 =>
      right
      refine ⟨rest.takeWhile p, (rest.dropWhile p).takeWhile q, c, r3, ?_, hd, hne, ht, ?_⟩
      · rw [h2] at e2
        rw [List.append_assoc, ← e2]; exact e1
      · have hh := List.head_dropWhile_not q (rest.dropWhile p) (by rw [h2]; simp)
        simp only [h2, List.head_cons] at hh
        simpa [q] using hh

theorem maximalRuns_cons_delim (c : Char) (s : List Char) (hc : c ∈ TOKEN_DELIM) :
    maximalRuns (c :: s) = maximalRuns s := by
  simp [maximalRuns, List.splitOnP_cons, hc]

theorem maximalRuns_delims (d s : List Char) (hd : ∀ c ∈ d, c ∈ TOKEN_DELIM) :
    maximalRuns (d ++ s) = maximalRuns s := by
  induction d with
  | nil => rfl
  | cons c d ih =>
    rw [List.cons_append, maximalRuns_cons_delim c _ (hd c (List.mem_cons_self _ _)),
      ih (fun x hx => hd x (List.mem_cons_of_mem _ hx))]

theorem maximalRuns_nil : maximalRuns [] = [] := by
  simp [maximalRuns]

theorem maximalRuns_tok (tok : List Char) (hne : tok ≠ []) (ht : ∀ c ∈ tok, c ∉ TOKEN_DELIM) :
    maximalRuns tok = [tok] := by
  unfold maximalRuns
  rw [List.splitOnP_eq_single]
  · simp [hne]
  · intro x hx
    simpa using ht x hx

theorem maximalRuns_tok_cons (tok r3 : List Char) (c : Char) (hne : tok ≠ [])
    (ht : ∀ c ∈ tok, c ∉ TOKEN_DELIM) (hc : c ∈ TOKEN_DELIM) :
    maximalRuns (tok ++ c :: r3) = tok :: maximalRuns r3 := by
  unfold maximalRuns
  rw [List.splitOnP_first]
  · simp [hne]
  · intro x hx
    simpa using ht x hx
  · simpa using hc

theorem settled_cstr {pre rest : List Char} {p : Nat} {w : List Char}
    (h : Settled pre rest p w) (tail : List Char) :
    cstr (pre ++ rest ++ NUL :: tail) p = w := by
  obtain ⟨hn, h | h⟩ := h
  · obtain ⟨a, b, rfl, rfl⟩ := h
    have := cstr_append a w (b ++ rest ++ NUL :: tail) hn
    simpa using this
  · obtain ⟨rfl, a, rfl, rfl⟩ := h
    have := cstr_append a w tail hn
    simpa using this

theorem settled_extend {pre rest : List Char} {p : Nat} {w : List Char}
    (h : Settled pre rest p w) (x rest1 : List Char) (hx : rest = [] → x = [] ∧ rest1 = []) :
    Settled (pre ++ x) rest1 p w := by
  obtain ⟨hn, h | h⟩ := h
  · obtain ⟨a, b, rfl, rfl⟩ := h
    exact ⟨hn, Or.inl ⟨a, b ++ x, by simp, rfl⟩⟩
  · obtain ⟨hr, a, rfl, rfl⟩ := h
    obtain ⟨rfl, rfl⟩ := hx hr
    exact ⟨hn, Or.inr ⟨rfl, a, by simp, rfl⟩⟩

theorem loop_none (allocOk : Nat → Bool) (junk : Option Nat) (fuel : Nat) (mem : List Char)
    (save : Nat) (tokens : List (Option Nat)) (k bufsize : Nat) :
    BreakLine.loop allocOk junk (fuel + 1) mem save none tokens k bufsize
      = .ret (tokens.set k none) mem := rfl

theorem loop_some (allocOk : Nat → Bool) (hall : ∀ n, allocOk n = true) (junk : Option Nat)
    (fuel : Nat) (mem : List Char) (save t : Nat) (tokens : List (Option Nat))
    (k bufsize : Nat) :
    BreakLine.loop allocOk junk (fuel + 1) mem save (some t) tokens k bufsize
      = BreakLine.loop allocOk junk fuel (strtok mem save none TOKEN_DELIM).mem
          (strtok mem save none TOKEN_DELIM).save (strtok mem save none TOKEN_DELIM).token
          (grown junk (tokens.set k (some t)) (k + 1) bufsize).1 (k + 1)
          (grown junk (tokens.set k (some t)) (k + 1) bufsize).2 := by
  conv => lhs; unfold BreakLine.loop
  unfold grown
  by_cases h : k + 1 ≥ bufsize
  · simp [h, hall]
  · simp [h]

theorem grown_spec (junk : Option Nat) (tokens : List (Option Nat)) (k bufsize : Nat)
    (hlen : tokens.length = bufsize) (hk : k < bufsize) :
    (grown junk tokens (k + 1) bufsize).1.length = (grown junk tokens (k + 1) bufsize).2
    ∧ k + 1 < (grown junk tokens (k + 1) bufsize).2
    ∧ ∀ i ≤ k, (grown junk tokens (k + 1) bufsize).1[i]? = tokens[i]? := by
  unfold grown
  by_cases h : k + 1 ≥ bufsize
  · simp only [h, if_true, List.length_append, List.length_replicate, hlen, true_and]
    refine ⟨by simp [BUFSIZE]; omega, fun i hi => ?_⟩
    rw [List.getElem?_append_left (by omega)]
  · rw [if_neg h]
    exact ⟨hlen, by omega, fun i _ => rfl⟩

/-- One call of `strtok` from a pending state leads to a pending state. -/
theorem strtok_step (pre rest tail : List Char) (hn : NUL ∉ rest) (save : Nat)
    (s : Option Nat) (hs : s.getD save = pre.length) (fuel : Nat)
    (hfuel : rest.length + 1 ≤ fuel) :
    ∃ x rest1 strs,
      (strtok (pre ++ rest ++ NUL :: tail) save s TOKEN_DELIM).mem
          = pre ++ x ++ rest1 ++ NUL :: tail
      ∧ (strtok (pre ++ rest ++ NUL :: tail) save s TOKEN_DELIM).save = (pre ++ x).length
      ∧ NUL ∉ rest1
      ∧ (rest = [] → x = [] ∧ rest1 = [])
      ∧ maximalRuns rest = strs
      ∧ Pending (pre ++ x) rest1
          (strtok (pre ++ rest ++ NUL :: tail) save s TOKEN_DELIM).token strs fuel := by
  rcases split_cases rest with hd | ⟨d, tok, rfl, hd, hne, ht⟩ | ⟨d, tok, c, r3, rfl, hd, hne, ht, hc⟩
  · refine ⟨rest, [], [], ?_, ?_, by simp, ?_, ?_, ?_⟩
    · rw [strtok_none pre rest tail save s hs hd]; simp
    · rw [strtok_none pre rest tail save s hs hd]
    · intro h; exact ⟨h, rfl⟩
    · have := maximalRuns_delims rest [] hd
      rw [List.append_nil] at this
      rw [this, maximalRuns_nil]
    · rw [strtok_none pre rest tail save s hs hd]
      exact Or.inl ⟨rfl, rfl, by omega⟩
  · have hnt : NUL ∉ tok := fun h => hn (List.mem_append_right _ h)
    have e : pre ++ (d ++ tok) ++ NUL :: tail = pre ++ d ++ tok ++ NUL :: tail := by simp
    have hl : 1 ≤ tok.length := List.length_pos.2 hne
    refine ⟨d ++ tok, [], [tok], ?_, ?_, by simp, ?_, ?_, ?_⟩
    · rw [e, strtok_last pre d tok tail save s hs hd ht hnt hne]; simp
    · rw [e, strtok_last pre d tok tail save s hs hd ht hnt hne]; simp
    · intro h; simp at h; exact absurd h.2 hne
    · rw [maximalRuns_delims d tok hd, maximalRuns_tok tok hne ht]
    · rw [e, strtok_last pre d tok tail save s hs hd ht hnt hne]
      refine Or.inr ⟨(pre ++ d).length, tok, rfl, ⟨hnt, Or.inr ⟨rfl, pre ++ d, by simp, rfl⟩⟩, ?_, ?_⟩
      · rw [maximalRuns_nil]
      · simp at hfuel ⊢; omega
  · have hnt : NUL ∉ tok := fun h =>
      hn (List.mem_append_left _ (List.mem_append_right _ h))
    have hn3 : NUL ∉ r3 := fun h =>
      hn (List.mem_append_right _ (List.mem_cons_of_mem _ h))
    have e : pre ++ (d ++ tok ++ c :: r3) ++ NUL :: tail
        = pre ++ d ++ tok ++ c :: (r3 ++ NUL :: tail) := by simp
    refine ⟨d ++ tok ++ [NUL], r3, tok :: maximalRuns r3, ?_, ?_, hn3, ?_, ?_, ?_⟩
    · rw [e, strtok_some pre d tok r3 tail c save s hs hd ht hnt hne hc]; simp
    · rw [e, strtok_some pre d tok r3 tail c save s hs hd ht hnt hne hc]; simp
    · intro h; simp at h
    · rw [List.append_assoc, maximalRuns_delims d _ hd, maximalRuns_tok_cons tok r3 c hne ht hc]
    · rw [e, strtok_some pre d tok r3 tail c save s hs hd ht hnt hne hc]
      refine Or.inr ⟨(pre ++ d).length, tok, rfl,
        ⟨hnt, Or.inl ⟨pre ++ d, [], by simp, rfl⟩⟩, rfl, ?_⟩
      simp at hfuel ⊢; omega

/-- The loop of `BreakLine` from a pending state: it returns, the cells below `k` are kept,
the cells from `k` on hold the pointers of the strings to come and then `NULL`, and every
settled token still reads the same in the final buffer. -/
theorem loop_spec (allocOk : Nat → Bool) (hall : ∀ n, allocOk n = true) (junk : Option Nat)
    (tail : List Char) :
    ∀ (fuel : Nat) (pre rest : List Char) (token : Option Nat) (strs : List (List Char))
      (arr : List (Option Nat)) (k bufsize : Nat),
      NUL ∉ rest → arr.length = bufsize → k < bufsize → Pending pre rest token strs fuel →
      ∃ (arr' : List (Option Nat)) (mem' : List Char) (new : List Nat),
        BreakLine.loop allocOk junk fuel (pre ++ rest ++ NUL :: tail) pre.length token arr k
            bufsize = .ret arr' mem'
        ∧ (∀ i < k, arr'[i]? = arr[i]?)
        ∧ (∀ i (h : i < new.length), arr'[k + i]? = some (some new[i]))
        ∧ arr'[k + new.length]? = some none
        ∧ new.map (cstr mem') = strs
        ∧ (∀ p w, Settled pre rest p w → cstr mem' p = w) := by
  intro fuel
  induction fuel with
  | zero =>
    intro pre rest token strs arr k bufsize _ _ _ hp
    rcases hp with ⟨_, _, h⟩ | ⟨_, _, _, _, _, h⟩ <;> omega
  | succ fuel ih =>
    intro pre rest token strs arr k bufsize hn hlen hk hp
    rcases hp with ⟨rfl, rfl, _⟩ | ⟨t, w, rfl, hset, rfl, hfuel⟩
    · refine ⟨arr.set k none, pre ++ rest ++ NUL :: tail, [], loop_none _ _ _ _ _ _ _ _, ?_, ?_,
        ?_, rfl, fun p w h => settled_cstr h tail⟩
      · intro i hi
        rw [List.getElem?_set_ne (by omega)]
      · intro i h; simp at h
      · simp only [List.length_nil, Nat.add_zero]
        simp [List.getElem?_set, hlen, hk]
    · obtain ⟨x, rest1, strs1, hmem, hsave, hn1, hx, hruns, hpend⟩ :=
        strtok_step pre rest tail hn pre.length none rfl fuel (by omega)
      obtain ⟨gl, gk, gi⟩ := grown_spec junk (arr.set k (some t)) k bufsize
        (by rw [List.length_set]; exact hlen) hk
      rw [loop_some allocOk hall, hmem, hsave]
      obtain ⟨arr', mem', new1, hloop, hlow, hnew, hend, hmap, hkeep⟩ :=
        ih (pre ++ x) rest1 _ strs1 _ (k + 1) _ hn1 gl gk hpend
      have hkeep' : ∀ p w, Settled pre rest p w → cstr mem' p = w :=
        fun p w h => hkeep p w (settled_extend h x rest1 hx)
      refine ⟨arr', mem', t :: new1, hloop, ?_, ?_, ?_, ?_, hkeep'⟩
      · intro i hi
        rw [hlow i (by omega), gi i (by omega), List.getElem?_set_ne (by omega)]
      · intro i h
        cases i with
        | zero =>
          rw [Nat.add_zero, hlow k (by omega), gi k (le_refl _)]
          simp [List.getElem?_set, hlen, hk]
        | succ i =>
          have := hnew i (by simpa using h)
          rw [show k + (i + 1) = k + 1 + i by omega, this]
          simp
      · rw [show k + (t :: new1).length = k + 1 + new1.length by simp; omega]
        exact hend
      · rw [List.map_cons, hmap, hkeep' t w hset, hruns]

theorem splitOnP_pieces {α : Type} (p : α → Bool) (xs : List α) :
    ∀ piece ∈ xs.splitOnP p, ∀ c ∈ piece, p c = false := by
  induction xs with
  | nil => simp [List.splitOnP_nil]
  | cons x xs ih =>
    rw [List.splitOnP_cons]
    by_cases hx : p x = true
    · simp only [hx, if_true]
      intro piece hp
      rcases List.mem_cons.1 hp with rfl | h
      · simp
      · exact ih piece h
    · simp only [hx]
      obtain ⟨h, t, ht⟩ := List.exists_cons_of_ne_nil (List.splitOnP_ne_nil p xs)
      rw [ht] at ih ⊢
      simp only [Bool.false_eq_true, if_false, List.modifyHead_cons]
      intro piece hp
      rcases List.mem_cons.1 hp with rfl | h'
      · intro c hc
        rcases List.mem_cons.1 hc with rfl | hc'
        · simpa using hx
        · exact ih h (List.mem_cons_self _ _) c hc'
      · exact ih piece (List.mem_cons_of_mem _ h')

theorem maximalRuns_mem (s t : List Char) (h : t ∈ maximalRuns s) :
    t ≠ [] ∧ ∀ c ∈ t, c ∉ TOKEN_DELIM := by
  unfold maximalRuns at h
  rw [List.mem_filter] at h
  obtain ⟨h1, h2⟩ := h
  refine ⟨by simpa using h2, fun c hc => ?_⟩
  simpa using splitOnP_pieces _ s t h1 c hc

/-- A buffer that holds a terminator is a string, its terminator, and what lies behind. -/
theorem buffer_split (string : List Char) (h : NUL ∈ string) :
    ∃ tail, string = cstr string 0 ++ NUL :: tail ∧ NUL ∉ cstr string 0 := by
  let q : Char → Bool := fun c => c != NUL
  have e : string.takeWhile q ++ string.dropWhile q = string := List.takeWhile_append_dropWhile q _
  have hn : NUL ∉ string.takeWhile q := by
    intro hm
    simpa [q] using List.mem_takeWhile_imp hm
  have hne : string.dropWhile q ≠ [] := by
    intro h0
    rw [h0, List.append_nil] at e
    rw [← e] at h
    exact hn h
  obtain ⟨x, tail, hx⟩ := List.exists_cons_of_ne_nil hne
  have hh := List.head_dropWhile_not q string hne
  simp only [hx, List.head_cons] at hh
  have hxn : x = NUL := by simpa [q] using hh
  subst hxn
  refine ⟨tail, ?_, ?_⟩
  · simp only [cstr, List.drop_zero]
    rw [← hx]; exact e.symm
  · simpa [cstr] using hn

/-- The behaviour of `BreakLine` on a terminated buffer when allocation succeeds. -/
theorem BreakLine_spec (allocOk : Nat → Bool) (hall : ∀ n, allocOk n = true)
    (junk : Option Nat) (string : List Char) (hterm : NUL ∈ string) :
    ∃ (tokens : List (Option Nat)) (mem : List Char) (ptrs : List Nat),
      BreakLine allocOk junk string = .ret tokens mem
      ∧ tokens.take (ptrs.length + 1) = ptrs.map some ++ [none]
      ∧ ptrs.map (cstr mem) = maximalRuns (cstr string 0) := by
  obtain ⟨tail, hsplit, hs⟩ := buffer_split string hterm
  generalize cstr string 0 = s at hsplit hs
  subst hsplit
  obtain ⟨x, rest1, strs, hmem, hsave, hn1, _, hruns, hpend⟩ :=
    strtok_step [] s tail hs 0 (some 0) rfl ((s ++ NUL :: tail).length + 1)
      (by simp)
  simp only [List.nil_append] at hmem hsave hpend
  obtain ⟨arr', mem', new, hloop, _, hnew, hend, hmap, _⟩ :=
    loop_spec allocOk hall junk tail ((s ++ NUL :: tail).length + 1) x rest1 _ strs
      (List.replicate BUFSIZE junk) 0 BUFSIZE hn1 (by simp) (by decide) hpend
  refine ⟨arr', mem', new, ?_, ?_, ?_⟩
  · unfold BreakLine
    simp only [hall, if_true, hmem, hsave]
    exact hloop
  · simp only [Nat.zero_add] at hnew hend
    apply List.ext_getElem?
    intro i
    by_cases hi : i < new.length
    · rw [List.getElem?_take_of_lt (by omega), hnew i hi,
        List.getElem?_append_left (by simpa using hi)]
      simp [hi]
    · by_cases hi2 : i = new.length
      · subst hi2
        rw [List.getElem?_take_of_lt (by omega), hend,
          List.getElem?_append_right (by simp)]
        simp
      · rw [List.getElem?_eq_none (by simp; omega), List.getElem?_eq_none (by simp; omega)]
  · rw [hmap, hruns]

/-! ## The tokenizer on concrete lines -/

/-- The maximal runs of the line `"  ls -l\t| wc \n"`. -/
theorem maximalRuns_example :
    maximalRuns "  ls -l\t| wc \n".toList
      = ["ls".toList, "-l".toList, "|".toList, "wc".toList] := by
  decide

/-- The call of `BreakLine` on the line `" ls -l\n"`: the two pointers, the terminator, the
cells never written, and the buffer with the two delimiters that were overwritten. -/
theorem BreakLine_example :
    BreakLine (fun _ => true) (some 99) (" ls -l\n".toList ++ [NUL])
      = .ret (some 1 :: some 4 :: none :: List.replicate 61 (some 99))
          [' ', 'l', 's', NUL, '-', 'l', NUL, NUL] := by
  decide

set_option maxRecDepth 100000 in
/-- The call of `BreakLine` on a line of 70 tokens: the array has grown to 128 cells, the 70
pointers are followed by the terminator. -/
theorem BreakLine_growth_example :
    BreakLine (fun _ => true) (some 99) ((List.replicate 70 ['a', ' ']).flatten ++ [NUL])
      = .ret ((List.range 70).map (fun i => some (2 * i)) ++ none :: List.replicate 57 (some 99))
          ((List.replicate 70 ['a', NUL]).flatten ++ [NUL]) := by
  decide

/-- The call of `BreakLine` when the first allocation fails. -/
theorem BreakLine_alloc_example :
    BreakLine (fun _ => false) none (" ls -l\n".toList ++ [NUL]) = .exitFailure := by
  decide

/-! ## The claims -/

/-- Claim C1: for every terminated input buffer, when the allocations succeed, `BreakLine`
returns; the array it returns holds the pointers of the tokens followed at once by `NULL`,
inside the allocated cells; read in the final buffer, the tokens are exactly the maximal runs
of non-delimiter characters of the input string, in order; and every token is non-empty and
free of delimiters.  No bound on the number of tokens is assumed. -/
theorem BreakLine_tokens (allocOk : Nat → Bool) (junk : Option Nat) (string : List Char)
    (hterm : NUL ∈ string) (hall : ∀ n, allocOk n = true) :
    ∃ (tokens : List (Option Nat)) (mem : List Char) (ptrs : List Nat),
      BreakLine allocOk junk string = .ret tokens mem
      ∧ tokens.take (ptrs.length + 1) = ptrs.map some ++ [none]
      ∧ ptrs.length < tokens.length
      ∧ ptrs.map (cstr mem) = maximalRuns (cstr string 0)
      ∧ ∀ t ∈ ptrs.map (cstr mem), t ≠ [] ∧ ∀ c ∈ t, c ∉ TOKEN_DELIM := by
  obtain ⟨tokens, mem, ptrs, h1, h2, h3⟩ := BreakLine_spec allocOk hall junk string hterm
  refine ⟨tokens, mem, ptrs, h1, h2, ?_, h3, ?_⟩
  · have := congrArg List.length h2
    simp only [List.length_take, List.length_append, List.length_map, List.length_singleton]
      at this
    omega
  · intro t ht
    rw [h3] at ht
    exact maximalRuns_mem _ t ht

/-- The claim C1 at the line `"  ls -l\t| wc \n"`. -/
theorem BreakLine_tokens_witness :
    NUL ∈ "  ls -l\t| wc \n".toList ++ [NUL]
    ∧ ∃ (tokens : List (Option Nat)) (mem : List Char) (ptrs : List Nat),
      BreakLine (fun _ => true) none ("  ls -l\t| wc \n".toList ++ [NUL]) = .ret tokens mem
      ∧ tokens.take (ptrs.length + 1) = ptrs.map some ++ [none]
      ∧ ptrs.length < tokens.length
      ∧ ptrs.map (cstr mem) = maximalRuns (cstr ("  ls -l\t| wc \n".toList ++ [NUL]) 0)
      ∧ ∀ t ∈ ptrs.map (cstr mem), t ≠ [] ∧ ∀ c ∈ t, c ∉ TOKEN_DELIM :=
  ⟨by decide, BreakLine_tokens (fun _ => true) none _ (by decide) (fun _ => rfl)⟩

/-- Claim C2: for a vector whose first token is neither `exit` nor `cd`, the body of the loop
of `main` acts on the smallest index `k >= 1` that holds one of `<`, `>`, `|`, `&`: it makes at
most one launcher call, and when a token follows the operator (or the operator is `&`) the
first thing it does, and its only call, is `IORedirect(args, k, 0)` for `<`,
`IORedirect(args, k, 1)` for `>`, `PipeRedirect(args, k)` for `|`, `StartProcess(args, k)` for
`&`.  When no index from 1 on holds an operator, the only call is `StartProcess(args, 0)`, the
vector is left as it was, and the child passes all tokens to `execvp`. -/
theorem main_dispatch (env : Env) (pwd : Option String) (toks : List String) (rest : Argv)
    (hne : toks ≠ []) (hexit : toks.head? ≠ some "exit") (hcd : toks.head? ≠ some "cd") :
    (∀ (k : Nat) (hk : k < toks.length), 1 ≤ k → toks[k] ∈ options →
      (∀ t ∈ (toks.take k).drop 1, t ∉ options) →
      (callsOf (mainBody env pwd (start (vec toks rest))).trace).length ≤ 1
      ∧ (toks[k] = "<" → k + 1 < toks.length →
          (mainBody env pwd (start (vec toks rest))).trace.head?
              = some (.call (.IORedirect (vec toks rest) k 0))
          ∧ callsOf (mainBody env pwd (start (vec toks rest))).trace
              = [.IORedirect (vec toks rest) k 0])
      ∧ (toks[k] = ">" → k + 1 < toks.length →
          (mainBody env pwd (start (vec toks rest))).trace.head?
              = some (.call (.IORedirect (vec toks rest) k 1))
          ∧ callsOf (mainBody env pwd (start (vec toks rest))).trace
              = [.IORedirect (vec toks rest) k 1])
      ∧ (toks[k] = "|" → k + 1 < toks.length →
          (mainBody env pwd (start (vec toks rest))).trace.head?
              = some (.call (.PipeRedirect (vec toks rest) k))
          ∧ callsOf (mainBody env pwd (start (vec toks rest))).trace
              = [.PipeRedirect (vec toks rest) k])
      ∧ (toks[k] = "&" →
          (mainBody env pwd (start (vec toks rest))).trace.head?
              = some (.call (.StartProcess (vec toks rest) k))
          ∧ callsOf (mainBody env pwd (start (vec toks rest))).trace
              = [.StartProcess (vec toks rest) k]))
    ∧ ((∀ t ∈ toks.drop 1, t ∉ options) →
      callsOf (mainBody env pwd (start (vec toks rest))).trace
          = [.StartProcess (vec toks rest) 0]
      ∧ (mainBody env pwd (start (vec toks rest))).args = vec toks rest
      ∧ (env.fork1 = 0 →
          (mainBody env pwd (start (vec toks rest))).trace.take 3
            = [.call (.StartProcess (vec toks rest) 0), .fork 0,
               .execvp toks.head? toks])) := by
  obtain ⟨hmt, hma⟩ := mainBody_dispatch env pwd toks rest hne hexit hcd
  rw [hmt, hma]
  refine ⟨fun k hk hk1 hop hfirst => ?_, fun hno => ?_⟩
  · obtain ⟨p0, p1, p2, p3⟩ := dispatch_op env toks rest k hk1 hk hfirst
    refine ⟨?_, fun h h2 => ⟨(p0 h h2).1, (p0 h h2).2.1⟩, fun h h2 => ⟨(p1 h h2).1, (p1 h h2).2.1⟩,
      fun h h2 => ⟨(p2 h h2).1, (p2 h h2).2.1⟩, fun h => ⟨(p3 h).1, (p3 h).2.1⟩⟩
    simp only [options, List.mem_cons, List.mem_singleton, List.not_mem_nil, or_false] at hop
    have hmiss : (toks[k] = "<" ∨ toks[k] = ">" ∨ toks[k] = "|") → ¬ k + 1 < toks.length →
        (callsOf (dispatch env (start (vec toks rest))).trace).length ≤ 1 := by
      intro hop' hlast
      rw [dispatch_missing env toks rest k hk1 (by omega) hfirst hop']
      simp [Res.trace, Res.state, callsOf]
    rcases hop with h | h | h | h
    · by_cases hlast : k + 1 < toks.length
      · rw [(p0 h hlast).2.1]; simp
      · exact hmiss (Or.inl h) hlast
    · by_cases hlast : k + 1 < toks.length
      · rw [(p1 h hlast).2.1]; simp
      · exact hmiss (Or.inr (Or.inl h)) hlast
    · by_cases hlast : k + 1 < toks.length
      · rw [(p2 h hlast).2.1]; simp
      · exact hmiss (Or.inr (Or.inr h)) hlast
    · rw [(p3 h).2.1]; simp
  · rw [dispatch_plain env toks rest hne hno]
    obtain ⟨tr, h1, h2⟩ := quiet_StartProcess env 0
      ⟨vec toks rest, [.call (.StartProcess (vec toks rest) 0)]⟩
    refine ⟨?_, StartProcess_zero_args env _, fun h0 => ?_⟩
    · rw [h1, callsOf_append, callsOf_quiet tr h2]
      rfl
    · cases hx : env.execOk <;>
      simp [StartProcess, fork, emit, execvp, getArgs, perror, exit, h0, hx, Res.trace,
        Res.state, argList_vec, head_vec]

/-- The claim C2 at `ls -l > out | wc`, whose first operator is the `>` at index 2, and at
`< -l`, which has no operator from index 1 on. -/
theorem main_dispatch_witness :
    callsOf (mainBody ⟨0, 0, true, 3, 0, 3, 4, []⟩ none
        (start (vec ["ls", "-l", ">", "out", "|", "wc"] []))).trace
      = [.IORedirect (vec ["ls", "-l", ">", "out", "|", "wc"] []) 2 1]
    ∧ callsOf (mainBody ⟨0, 0, true, 3, 0, 3, 4, []⟩ none (start (vec ["<", "-l"] []))).trace
      = [.StartProcess (vec ["<", "-l"] []) 0] :=
  ⟨((((main_dispatch ⟨0, 0, true, 3, 0, 3, 4, []⟩ none ["ls", "-l", ">", "out", "|", "wc"] []
      (by decide) (by decide) (by decide)).1 2 (by decide) (by decide) (by decide)
      (by decide)).2.2.1) rfl (by decide)).2,
   ((main_dispatch ⟨0, 0, true, 3, 0, 3, 4, []⟩ none ["<", "-l"] []
      (by decide) (by decide) (by decide)).2 (by decide)).1⟩

/-- Claim C3: when the first operator from index 1 is `<`, `>` or `|` and is the last token,
the dispatch prints the diagnostic `SHELL: parameter missing`, enters no launcher (the
diagnostic is the whole trace, so no process is created) and leaves the vector unchanged;
when the first operator is `&` as the last token, the first thing the dispatch does is the
call `StartProcess(args, k)`, its only call, and the diagnostic is not printed. -/
theorem dispatch_parameter_missing (env : Env) (toks : List String) (rest : Argv) (k : Nat)
    (hk1 : 1 ≤ k) (hk : k + 1 = toks.length)
    (hfirst : ∀ t ∈ (toks.take k).drop 1, t ∉ options) :
    ((toks[k] = "<" ∨ toks[k] = ">" ∨ toks[k] = "|") →
      dispatch env (start (vec toks rest))
        = .ok () ⟨vec toks rest, [.stderr "SHELL: parameter missing\n"]⟩)
    ∧ (toks[k] = "&" →
      (dispatch env (start (vec toks rest))).trace.head?
          = some (.call (.StartProcess (vec toks rest) k))
      ∧ callsOf (dispatch env (start (vec toks rest))).trace
          = [.StartProcess (vec toks rest) k]
      ∧ .stderr "SHELL: parameter missing\n"
          ∉ (dispatch env (start (vec toks rest))).trace) :=
  ⟨fun hop => dispatch_missing env toks rest k hk1 hk hfirst hop,
   fun hamp => (dispatch_op env toks rest k hk1 (by omega) hfirst).2.2.2 hamp⟩

/-- The claim C3 at `cat <` and at `sleep &`. -/
theorem dispatch_parameter_missing_witness :
    dispatch ⟨0, 0, true, 3, 0, 3, 4, []⟩ (start (vec ["cat", "<"] []))
      = .ok () ⟨vec ["cat", "<"] [], [.stderr "SHELL: parameter missing\n"]⟩
    ∧ callsOf (dispatch ⟨7, 0, true, 3, 0, 3, 4, []⟩ (start (vec ["sleep", "&"] []))).trace
      = [.StartProcess (vec ["sleep", "&"] []) 1] :=
  ⟨(dispatch_parameter_missing ⟨0, 0, true, 3, 0, 3, 4, []⟩ ["cat", "<"] [] 1
      (by decide) (by decide) (by decide)).1 (Or.inl rfl),
   ((dispatch_parameter_missing ⟨7, 0, true, 3, 0, 3, 4, []⟩ ["sleep", "&"] [] 1
      (by decide) (by decide) (by decide)).2 rfl).2.1⟩

/-- Claim C4, evaluated at `nosuch &`: in the foreground the child of `StartProcess` whose
`execvp` fails reports and leaves by `exit(1)`; in the background (`k = 1`) it reports, but
then runs the code of the parent (the notice and the `waitpid`) and returns to its caller. -/
theorem StartProcess_exec_failure :
    StartProcess ⟨0, 0, false, 0, 0, 0, 0, []⟩ 0 (start [some "nosuch", none])
      = .stop (.exited 1) ⟨[some "nosuch", none],
          [.fork 0, .execvp (some "nosuch") ["nosuch"], .perror "Program execution failed",
           .exit 1]⟩
    ∧ StartProcess ⟨0, 0, false, 0, 0, 0, 0, []⟩ 1 (start [some "nosuch", some "&", none])
      = .ok () ⟨[some "nosuch", none, none],
          [.fork 0, .execvp (some "nosuch") ["nosuch"], .perror "Program execution failed",
           .stderr "Starting background process...", .waitpid (-1) .WNOHANG]⟩ := by
  decide

/-- Claim C5, evaluated at `cat < nofile`: the child of `IORedirect` whose `open` fails prints
`File error`, calls neither `execvp` nor `exit`, leaves the vector as it was, and returns to
its caller. -/
theorem IORedirect_open_failure :
    IORedirect ⟨0, 0, true, -1, 0, 0, 0, []⟩ 1 0
        (start [some "cat", some "<", some "nofile", none])
      = .ok () ⟨[some "cat", some "<", some "nofile", none],
          [.fork 0, .openFile (some "nofile") .O_RDONLY mode (-1), .stderr "File error"]⟩ := by
  decide

/-- Claim C6: in the child of `IORedirect(args, k, mode)`, with `k >= 1`, a token at
`args[k+1]` and a successful `open`, the descriptor is duplicated onto standard input for
mode 0 and onto standard output for mode 1, then closed, and `execvp` is called with program
`args[0]` and the argument list `args[0..k)`; when `execvp` succeeds the image is replaced
at that point. -/
theorem IORedirect_child (env : Env) (toks : List String) (rest : Argv) (k ioMode : Nat)
    (hk : 1 ≤ k) (hk2 : k + 1 < toks.length) (hchild : env.fork1 = 0)
    (hopen : 0 ≤ env.openRet) (hmode : ioMode = 0 ∨ ioMode = 1) :
    (IORedirect env k ioMode (start (vec toks rest))).trace.take 5
        = [.fork 0,
           .openFile (some toks[k + 1])
             (if ioMode = 0 then .O_RDONLY else .O_WRONLY_CREAT_TRUNC) mode env.openRet,
           .dup2 env.openRet (if ioMode = 0 then STDIN_FILENO else STDOUT_FILENO),
           .close env.openRet,
           .execvp toks.head? (toks.take k)]
    ∧ (env.execOk = true →
        IORedirect env k ioMode (start (vec toks rest))
          = .stop .replaced ⟨((vec toks rest).set k none).set (k + 1) none,
              [.fork 0,
               .openFile (some toks[k + 1])
                 (if ioMode = 0 then .O_RDONLY else .O_WRONLY_CREAT_TRUNC) mode env.openRet,
               .dup2 env.openRet (if ioMode = 0 then STDIN_FILENO else STDOUT_FILENO),
               .close env.openRet,
               .execvp toks.head? (toks.take k)]⟩) := by
  have hlt : ¬ env.openRet < 0 := by omega
  have hc := cell_vec toks rest (k + 1) hk2
  have ha := argList_set_set toks rest k (by omega)
  have h0 : cell (((vec toks rest).set k none).set (k + 1) none) 0 = toks.head? := by
    rw [cell_set _ _ _ (by omega), cell_set _ _ _ (by omega), head_vec]
  refine ⟨?_, fun hx => ?_⟩
  · rcases hmode with rfl | rfl <;> cases hx : env.execOk <;>
    simp [IORedirect, start, fork, emit, setNull, execvp, getArgs, perror, fprintf_stderr,
      openFile, dup2, close, exit, Res.trace, Res.state, hchild, hx, hlt, hc, ha, h0,
      STDIN_FILENO, STDOUT_FILENO]
  · rcases hmode with rfl | rfl <;>
    simp [IORedirect, start, fork, emit, setNull, execvp, getArgs, perror, fprintf_stderr,
      openFile, dup2, close, exit, hchild, hx, hlt, hc, ha, h0,
      STDIN_FILENO, STDOUT_FILENO]

/-- The claim C6 at `cmd > file`: the argument list of the program is `["cmd"]`. -/
theorem IORedirect_child_witness :
    IORedirect ⟨0, 0, true, 3, 0, 0, 0, []⟩ 1 1 (start (vec ["cmd", ">", "file"] []))
      = .stop .replaced ⟨[some "cmd", none, none, none],
          [.fork 0, .openFile (some "file") .O_WRONLY_CREAT_TRUNC mode 3,
           .dup2 3 STDOUT_FILENO, .close 3, .execvp (some "cmd") ["cmd"]]⟩ :=
  (IORedirect_child ⟨0, 0, true, 3, 0, 0, 0, []⟩ ["cmd", ">", "file"] [] 1 1
    (by decide) (by decide) rfl (by decide) (Or.inr rfl)).2 rfl

/-- Claim C7: for `PipeRedirect(args, k)` with `k >= 1`, a token at `args[k+1]` and a
successful `pipe`: the copy made by `CopyArgs` holds exactly `args[0..k)`; child 1 binds the
write end to standard output, closes both descriptors and calls `execvp` with the copy; child
2 binds the read end to standard input, closes both descriptors and calls `execvp` with
`args[k+1..end)`; the parent closes both descriptors, calls `wait` twice and returns; `args`
is unchanged in all three processes. -/
theorem PipeRedirect_processes (env : Env) (toks : List String) (rest : Argv) (k : Nat)
    (hk : 1 ≤ k) (hk2 : k + 1 < toks.length) (hpipe : env.pipeRet ≠ -1) :
    CopyArgs k (vec toks rest) = vec (toks.take k) []
    ∧ (env.fork1 = 0 →
        (PipeRedirect env k (start (vec toks rest))).trace.take 6
            = [.pipe env.pipeRet, .fork 0, .dup2 env.fpipe1 STDOUT_FILENO,
               .close env.fpipe0, .close env.fpipe1, .execvp toks.head? (toks.take k)]
        ∧ (PipeRedirect env k (start (vec toks rest))).args = vec toks rest
        ∧ (env.execOk = true →
            PipeRedirect env k (start (vec toks rest))
              = .stop .replaced ⟨vec toks rest,
                  [.pipe env.pipeRet, .fork 0, .dup2 env.fpipe1 STDOUT_FILENO,
                   .close env.fpipe0, .close env.fpipe1,
                   .execvp toks.head? (toks.take k)]⟩))
    ∧ (0 < env.fork1 → env.fork2 = 0 →
        (PipeRedirect env k (start (vec toks rest))).trace.take 7
            = [.pipe env.pipeRet, .fork env.fork1, .fork 0, .dup2 env.fpipe0 STDIN_FILENO,
               .close env.fpipe1, .close env.fpipe0,
               .execvp (some toks[k + 1]) (toks.drop (k + 1))]
        ∧ (PipeRedirect env k (start (vec toks rest))).args = vec toks rest
        ∧ (env.execOk = true →
            PipeRedirect env k (start (vec toks rest))
              = .stop .replaced ⟨vec toks rest,
                  [.pipe env.pipeRet, .fork env.fork1, .fork 0,
                   .dup2 env.fpipe0 STDIN_FILENO, .close env.fpipe1, .close env.fpipe0,
                   .execvp (some toks[k + 1]) (toks.drop (k + 1))]⟩))
    ∧ (0 < env.fork1 → 0 < env.fork2 →
        PipeRedirect env k (start (vec toks rest))
          = .ok () ⟨vec toks rest,
              [.pipe env.pipeRet, .fork env.fork1, .fork env.fork2,
               .close env.fpipe0, .close env.fpipe1, .wait, .wait]⟩) := by
  have hcopy := CopyArgs_vec toks rest k (by omega)
  have hal : argList (vec (toks.take k) []) = toks.take k := argList_vec _ _
  have hhd : cell (vec (toks.take k) []) 0 = toks.head? := by
    rw [head_vec]
    cases toks with
    | nil => simp at hk2
    | cons t ts =>
      cases k with
      | zero => omega
      | succ k => simp
  have hd := drop_vec toks rest (k + 1) (by omega)
  have hal2 : argList (vec (toks.drop (k + 1)) rest) = toks.drop (k + 1) := argList_vec _ _
  have hhd2 : cell (vec (toks.drop (k + 1)) rest) 0 = some toks[k + 1] := by
    rw [head_vec]
    simp [List.head?_drop, List.getElem?_eq_getElem hk2]
  refine ⟨hcopy, fun h1 => ⟨?_, ?_, fun hx => ?_⟩, fun h1 h2 => ⟨?_, ?_, fun hx => ?_⟩,
    fun h1 h2 => ?_⟩
  · cases hx : env.execOk <;>
    simp [PipeRedirect, start, pipe, fork, emit, execvp, getArgs, perror, dup2, close, exit,
      Res.trace, Res.state, hpipe, h1, hx, hcopy, hal, hhd]
  · cases hx : env.execOk <;>
    simp [PipeRedirect, start, pipe, fork, emit, execvp, getArgs, perror, dup2, close, exit,
      Res.args, Res.state, hpipe, h1, hx, hcopy, hal, hhd]
  · simp [PipeRedirect, start, pipe, fork, emit, execvp, getArgs, perror, dup2, close, exit,
      hpipe, h1, hx, hcopy, hal, hhd]
  · have h1' : env.fork1 ≠ 0 := by omega
    cases hx : env.execOk <;>
    simp [PipeRedirect, start, pipe, fork, emit, execvp, getArgs, perror, dup2, close, exit,
      Res.trace, Res.state, hpipe, h1', h2, hx, hd, hal2, hhd2]
  · have h1' : env.fork1 ≠ 0 := by omega
    cases hx : env.execOk <;>
    simp [PipeRedirect, start, pipe, fork, emit, execvp, getArgs, perror, dup2, close, exit,
      Res.args, Res.state, hpipe, h1', h2, hx, hd, hal2, hhd2]
  · have h1' : env.fork1 ≠ 0 := by omega
    simp [PipeRedirect, start, pipe, fork, emit, execvp, getArgs, perror, dup2, close, exit,
      hpipe, h1', h2, hx, hd, hal2, hhd2]
  · have h1' : env.fork1 ≠ 0 := by omega
    have h2' : env.fork2 ≠ 0 := by omega
    simp [PipeRedirect, start, pipe, fork, emit, dup2, close, wait, getArgs,
      hpipe, h1', h2']

/-- The claim C7 at `ls -l | grep x | wc`, in the parent and in the second child. -/
theorem PipeRedirect_processes_witness :
    PipeRedirect ⟨100, 101, true, 0, 0, 3, 4, []⟩ 2
        (start (vec ["ls", "-l", "|", "grep", "x", "|", "wc"] []))
      = .ok () ⟨vec ["ls", "-l", "|", "grep", "x", "|", "wc"] [],
          [.pipe 0, .fork 100, .fork 101, .close 3, .close 4, .wait, .wait]⟩
    ∧ PipeRedirect ⟨100, 0, true, 0, 0, 3, 4, []⟩ 2
        (start (vec ["ls", "-l", "|", "grep", "x", "|", "wc"] []))
      = .stop .replaced ⟨vec ["ls", "-l", "|", "grep", "x", "|", "wc"] [],
          [.pipe 0, .fork 100, .fork 0, .dup2 3 STDIN_FILENO, .close 4, .close 3,
           .execvp (some "grep") ["grep", "x", "|", "wc"]]⟩ :=
  ⟨(PipeRedirect_processes ⟨100, 101, true, 0, 0, 3, 4, []⟩
      ["ls", "-l", "|", "grep", "x", "|", "wc"] [] 2 (by decide) (by decide)
      (by decide)).2.2.2 (by decide) (by decide),
   ((PipeRedirect_processes ⟨100, 0, true, 0, 0, 3, 4, []⟩
      ["ls", "-l", "|", "grep", "x", "|", "wc"] [] 2 (by decide) (by decide)
      (by decide)).2.2.1 (by decide) rfl).2.2 rfl⟩

/-- Claim C8: for `StartProcess(args, k)` with `k > 0` inside the vector, `args[k]` is set to
`NULL` before the `fork` (parent and child both hold the truncated vector), the child calls
`execvp` with the argument list `args[0..k)`, and the parent prints the notice, calls
`waitpid(-1, &status, WNOHANG)` once and returns, with no other wait. -/
theorem StartProcess_background (env : Env) (toks : List String) (rest : Argv) (k : Nat)
    (hk : 0 < k) (hk2 : k ≤ toks.length) :
    (env.fork1 = 0 →
      (StartProcess env k (start (vec toks rest))).trace.take 2
          = [.fork 0, .execvp toks.head? (toks.take k)]
      ∧ (env.execOk = true →
          StartProcess env k (start (vec toks rest))
            = .stop .replaced ⟨(vec toks rest).set k none,
                [.fork 0, .execvp toks.head? (toks.take k)]⟩))
    ∧ (0 < env.fork1 →
      StartProcess env k (start (vec toks rest))
        = .ok () ⟨(vec toks rest).set k none,
            [.fork env.fork1, .stderr "Starting background process...",
             .waitpid (-1) .WNOHANG]⟩) := by
  have hk0 : k ≠ 0 := by omega
  refine ⟨fun h0 => ⟨?_, fun hx => ?_⟩, fun hp => ?_⟩
  · cases hx : env.execOk <;>
    simp [StartProcess, start, fork, emit, setNull, execvp, getArgs, perror, fprintf_stderr,
      waitpid, Res.trace, Res.state, hk, hk0, h0, hx, argList_set toks rest k hk2,
      cell_set_zero, head_vec]
  · simp [StartProcess, start, fork, emit, setNull, execvp, getArgs, hk, hk0, h0, hx,
      argList_set toks rest k hk2, cell_set_zero, head_vec]
  · have hp0 : env.fork1 ≠ 0 := by omega
    simp [StartProcess, start, fork, emit, setNull, fprintf_stderr, waitpid, hk, hk0, hp0]

/-- The claim C8 at `sleep 10 &`, in the child and in the parent. -/
theorem StartProcess_background_witness :
    StartProcess ⟨0, 0, true, 0, 0, 0, 0, []⟩ 2 (start (vec ["sleep", "10", "&"] []))
      = .stop .replaced ⟨[some "sleep", some "10", none, none],
          [.fork 0, .execvp (some "sleep") ["sleep", "10"]]⟩
    ∧ StartProcess ⟨100, 0, true, 0, 0, 0, 0, []⟩ 2 (start (vec ["sleep", "10", "&"] []))
      = .ok () ⟨[some "sleep", some "10", none, none],
          [.fork 100, .stderr "Starting background process...", .waitpid (-1) .WNOHANG]⟩ :=
  ⟨((StartProcess_background ⟨0, 0, true, 0, 0, 0, 0, []⟩ ["sleep", "10", "&"] [] 2
      (by decide) (by decide)).1 rfl).2 rfl,
   (StartProcess_background ⟨100, 0, true, 0, 0, 0, 0, []⟩ ["sleep", "10", "&"] [] 2
      (by decide) (by decide)).2 (by decide)⟩

/-- Claim C9: for every terminated buffer whose string holds only delimiters (the empty
string included), when the allocations succeed, `BreakLine` returns an array whose cell 0 is
`NULL`, and the iteration of the loop of `main` ends with an empty trace: no launcher is
called, nothing is printed, the next iteration follows. -/
theorem main_blank_line (allocOk : Nat → Bool) (junk : Option Nat) (env : Env)
    (pwd : Option String) (cmdtext : List Char) (hterm : NUL ∈ cmdtext)
    (hblank : ∀ c ∈ cstr cmdtext 0, c ∈ TOKEN_DELIM) (hall : ∀ n, allocOk n = true) :
    ∃ (tokens : List (Option Nat)) (mem : List Char),
      BreakLine allocOk junk cmdtext = .ret tokens mem
      ∧ tokens.take 1 = [none]
      ∧ mainIter allocOk junk env pwd cmdtext = .ok .next ⟨argvOf tokens mem, []⟩ := by
  obtain ⟨tokens, mem, ptrs, h1, h2, h3⟩ := BreakLine_spec allocOk hall junk cmdtext hterm
  have hruns : maximalRuns (cstr cmdtext 0) = [] := by
    have := maximalRuns_delims (cstr cmdtext 0) [] hblank
    rw [List.append_nil] at this
    rw [this, maximalRuns_nil]
  rw [hruns] at h3
  have hp : ptrs = [] := by simpa using h3
  subst hp
  simp only [List.length_nil, Nat.zero_add, List.map_nil, List.nil_append] at h2
  refine ⟨tokens, mem, h1, h2, ?_⟩
  cases tokens with
  | nil => simp at h2
  | cons t ts =>
    have ht : t = none := by simpa using h2
    subst ht
    simp [mainIter, h1, mainBody, getArgs, start, argvOf, cell]

/-- The claim C9 at a line of two blanks, a tab and a newline. -/
theorem main_blank_line_witness :
    ∃ (tokens : List (Option Nat)) (mem : List Char),
      BreakLine (fun _ => true) none ("  \t\n".toList ++ [NUL]) = .ret tokens mem
      ∧ tokens.take 1 = [none]
      ∧ mainIter (fun _ => true) none ⟨0, 0, true, 3, 0, 3, 4, []⟩ none
          ("  \t\n".toList ++ [NUL]) = .ok .next ⟨argvOf tokens mem, []⟩ :=
  main_blank_line (fun _ => true) none ⟨0, 0, true, 3, 0, 3, 4, []⟩ none
    ("  \t\n".toList ++ [NUL]) (by decide) (by decide) (fun _ => rfl)

/-- Claim C10, evaluated where `fork` returns `-1`: `StartProcess` prints no diagnostic and
goes on to `waitpid` in the foreground, and to the background notice and `waitpid` in the
background; `PipeRedirect` prints no diagnostic and calls `wait` twice; only `IORedirect`
reports the failure with `perror` and returns without waiting. -/
theorem fork_failure :
    StartProcess ⟨-1, 0, true, 0, 0, 0, 0, [⟨true, false⟩]⟩ 0 (start [some "ls", none])
      = .ok () ⟨[some "ls", none], [.fork (-1), .waitpid (-1) .WUNTRACED]⟩
    ∧ StartProcess ⟨-1, 0, true, 0, 0, 0, 0, []⟩ 1 (start [some "ls", some "&", none])
      = .ok () ⟨[some "ls", none, none],
          [.fork (-1), .stderr "Starting background process...", .waitpid (-1) .WNOHANG]⟩
    ∧ PipeRedirect ⟨-1, -1, true, 0, 0, 3, 4, []⟩ 1
        (start [some "ls", some "|", some "wc", none])
      = .ok () ⟨[some "ls", some "|", some "wc", none],
          [.pipe 0, .fork (-1), .fork (-1), .close 3, .close 4, .wait, .wait]⟩
    ∧ IORedirect ⟨-1, 0, true, 0, 0, 0, 0, []⟩ 1 1
        (start [some "ls", some ">", some "f", none])
      = .ok () ⟨[some "ls", some ">", some "f", none], [.fork (-1), .perror "SHELL"]⟩ := by
  decide

end Shell
